import Mathlib

/-!
Verification of the QFT benchmarking harness (benchmark_qft.py).

The harness builds a Quantum Fourier Transform circuit for each of several
simulator backends (Qiskit with two backends, pyQuil, Cirq, qsim), times
repeated single-shot executions, records the best (minimum) elapsed time per
(qubit count, backend) cell of a pandas DataFrame, and finally plots the
table.

The embedding below follows the source closely:
- each backend circuit builder becomes a Lean function producing that
  backend's native instruction list (angles are carried symbolically: every
  phase parameter in the source is the float `math.pi / 2 ** (j - k)`, which
  we record by its exponent `j - k`);
- the timed harness becomes explicit state passing over a `HState` carrying
  the results table, the process-wide gc flag and an event trace; external
  calls (version HTTP queries, backend acquisition, timed runs) are an
  environment `Env` of fallible functions, since Python exceptions propagate
  freely (the source installs no handler anywhere);
- elapsed wall-clock samples are abstracted as rationals (milliseconds)
  supplied by the environment, one per (backend, qubit count, repeat index).
-/

/-- Backend-neutral gate operation, as described by the spec (§3 GateOp):
a Hadamard, a controlled phase whose angle is pi / 2 ^ d radians (we carry
the exponent `d = j - k`), or a measurement of one qubit. -/
inductive GateOp where
  | hGate (q : Nat)
  | cphase (d : Nat) (ctl tgt : Nat)
  | measureQ (q : Nat)
  deriving DecidableEq, Repr

/-- Native Qiskit instruction: `qc.cu1(angle, q[ctl], q[tgt])`, `qc.h(q[j])`
or `qc.measure(q[i], c[i])`. The cu1 angle `math.pi / 2 ** d` is carried as
its exponent `d`. -/
inductive QiskitInstr where
  | cu1 (d : Nat) (ctl tgt : Nat)
  | h (q : Nat)
  | meas (q c : Nat)
  deriving DecidableEq, Repr

/-- Embedding of `qft_qiskit(n)`: for j in range(n), cu1 gates for k in
range(j) then an H, followed by a measurement of every qubit into the
classical register. -/
def qft_qiskit (n : Nat) : List QiskitInstr :=
  ((List.range n).flatMap fun j =>
    ((List.range j).map fun k => QiskitInstr.cu1 (j - k) j k) ++ [QiskitInstr.h j])
  ++ ((List.range n).map fun i => QiskitInstr.meas i i)

/-- Native pyQuil instruction: `CPHASE(angle, j, k)`, `H(j)` or
`MEASURE(i, ro[i])`. -/
inductive PyquilInstr where
  | cphaseG (d : Nat) (a b : Nat)
  | h (q : Nat)
  | meas (q ro : Nat)
  deriving DecidableEq, Repr

/-- A pyQuil `Program`: its instruction list and its numshots setting
(`Program()` defaults to one shot). -/
structure PyquilProgram where
  insts : List PyquilInstr
  numshots : Nat
  deriving DecidableEq, Repr

/-- Embedding of `qft_pyquil(n)`. -/
def qft_pyquil (n : Nat) : PyquilProgram :=
  { insts :=
      ((List.range n).flatMap fun j =>
        ((List.range j).map fun k => PyquilInstr.cphaseG (j - k) j k) ++ [PyquilInstr.h j])
      ++ ((List.range n).map fun i => PyquilInstr.meas i i)
    numshots := 1 }

/-- Embedding of `Program.wrap_in_numshots_loop(shots)`. -/
def wrap_in_numshots_loop (p : PyquilProgram) (shots : Nat) : PyquilProgram :=
  { p with numshots := shots }

/-- Native Cirq operation: `cirq.ZPowGate(exponent=e).controlled()(q[a], q[b])`
(the exponent passed by the source is `math.pi / 2 ** d`, carried as `d`),
`cirq.H(q[j])`, or `cirq.measure(q[i], key='c' + str(i))`. -/
inductive CirqOp where
  | czpow (d : Nat) (a b : Nat)
  | h (q : Nat)
  | meas (q : Nat) (key : String)
  deriving DecidableEq, Repr

/-- Embedding of `qft_cirq(n)` (qubits `GridQubit.rect(1, n)` are identified
with their column indices 0..n-1). -/
def qft_cirq (n : Nat) : List CirqOp :=
  ((List.range n).flatMap fun j =>
    ((List.range j).map fun k => CirqOp.czpow (j - k) j k) ++ [CirqOp.h j])
  ++ ((List.range n).map fun i => CirqOp.meas i ("c" ++ toString i))

/-- One line of the qsim text circuit: `t cp j k angle` or `t h j`, where
`t` is the running timestamp counter and the cp angle `math.pi / 2 ** d`
is carried as `d`. The source serializes these lines (after a first line
holding `n`) into a string; we keep them structured. -/
inductive QsimInstr where
  | cp (t : Nat) (j k : Nat) (d : Nat)
  | h (t : Nat) (q : Nat)
  deriving DecidableEq, Repr

/-- The qsim circuit text: leading qubit count, then the instruction lines. -/
structure QsimCircuit where
  n : Nat
  instrs : List QsimInstr
  deriving DecidableEq, Repr

/-- Inner `for k in range(j)` loop of `qft_qsim`: emits one cp line per k and
bumps the timestamp counter after each line. -/
def qsimInner (j : Nat) : List Nat → Nat × List QsimInstr → Nat × List QsimInstr
  | [], st => st
  | k :: rest, (t, acc) => qsimInner j rest (t + 1, acc ++ [QsimInstr.cp t j k (j - k)])

/-- Outer `for j in range(n)` loop of `qft_qsim`: the inner cp loop, then one
h line, bumping the counter after each emitted line. -/
def qsimLoop : List Nat → Nat × List QsimInstr → Nat × List QsimInstr
  | [], st => st
  | j :: rest, (t, acc) =>
      qsimLoop rest
        ((qsimInner j (List.range j) (t, acc)).1 + 1,
         (qsimInner j (List.range j) (t, acc)).2
           ++ [QsimInstr.h (qsimInner j (List.range j) (t, acc)).1 j])

/-- Embedding of `qft_qsim(n)`. Note that the measurement-emitting loop in
the source is commented out ("No measurement gate..."), so no measurement
lines are produced. -/
def qft_qsim (n : Nat) : QsimCircuit :=
  { n := n, instrs := (qsimLoop (List.range n) (0, [])).2 }

/-- Logical reading of a Qiskit instruction: cu1 is a controlled phase of its
angle argument; the classical target of a measurement is not part of the
logical circuit. -/
def QiskitInstr.toSpec : QiskitInstr → GateOp
  | .cu1 d c t => .cphase d c t
  | .h q => .hGate q
  | .meas q _ => .measureQ q

/-- Logical circuit of a Qiskit circuit. -/
def qiskitToSpec (l : List QiskitInstr) : List GateOp := l.map QiskitInstr.toSpec

/-- Logical reading of a pyQuil instruction. -/
def PyquilInstr.toSpec : PyquilInstr → GateOp
  | .cphaseG d a b => .cphase d a b
  | .h q => .hGate q
  | .meas q _ => .measureQ q

/-- Logical circuit of a pyQuil program. -/
def pyquilToSpec (p : PyquilProgram) : List GateOp := p.insts.map PyquilInstr.toSpec

/-- Modelled from the spec: the spec (§3, §4.1) treats every backend's
controlled-phase encoding as the same logical ControlledPhase gate, so the
controlled ZPowGate is read as a controlled phase of the numeric parameter
the source passes to it (the Cirq library internals that interpret the
exponent are outside this repository). -/
def CirqOp.toSpec : CirqOp → GateOp
  | .czpow d a b => .cphase d a b
  | .h q => .hGate q
  | .meas q _ => .measureQ q

/-- Logical circuit of a Cirq circuit. -/
def cirqToSpec (l : List CirqOp) : List GateOp := l.map CirqOp.toSpec

/-- Logical reading of a qsim line (the timestamp counter is layout, not a
gate). -/
def QsimInstr.toSpec : QsimInstr → GateOp
  | .cp _ j k d => .cphase d j k
  | .h _ q => .hGate q

/-- Logical circuit of a qsim circuit. -/
def qsimToSpec (c : QsimCircuit) : List GateOp := c.instrs.map QsimInstr.toSpec

/-- The reference logical circuit, stated from the spec's words (§4.1): for
each j, one ControlledPhase(pi/2^(j-k), control=j, target=k) for every k < j
in increasing k order, then one Hadamard(j); afterwards one measurement per
qubit in index order. -/
def qftSpec (n : Nat) : List GateOp :=
  ((List.range n).flatMap fun j =>
    ((List.range j).map fun k => GateOp.cphase (j - k) j k) ++ [GateOp.hGate j])
  ++ ((List.range n).map fun i => GateOp.measureQ i)

/-- The gate-only part of the reference circuit (no measurements). -/
def qftSpecGates (n : Nat) : List GateOp :=
  (List.range n).flatMap fun j =>
    ((List.range j).map fun k => GateOp.cphase (j - k) j k) ++ [GateOp.hGate j]

/-- Is the operation a Hadamard? -/
def GateOp.isH : GateOp → Bool
  | .hGate _ => true
  | _ => false

/-- Is the operation a controlled phase? -/
def GateOp.isCP : GateOp → Bool
  | .cphase _ _ _ => true
  | _ => false

/-- Is the operation a measurement? -/
def GateOp.isMeas : GateOp → Bool
  | .measureQ _ => true
  | _ => false

/-- The controlled-phase gates of a logical circuit, as
(exponent, control, target) triples. -/
def cphases (l : List GateOp) : List (Nat × Nat × Nat) :=
  l.filterMap fun g =>
    match g with
    | .cphase d c t => some (d, c, t)
    | _ => none

/-- Elapsed wall-clock samples in milliseconds. The source computes
`(time.time() - start_time) * 1000` as a float; samples are abstracted as
rationals supplied by the environment. -/
abbrev Time := ℚ

/-- A propagating Python exception, identified by its message. -/
abbrev Err := String

/-- The simulator backends the harness can time. -/
inductive Backend where
  | toasterB
  | aerB
  | qvmB
  | cirqB
  | qsimB
  deriving DecidableEq, Repr

/-- The circuit-builder family used by a backend pass. -/
inductive Fam where
  | fQiskit
  | fPyquil
  | fCirq
  | fQsim
  deriving DecidableEq, Repr

/-- Which builder family serves which backend. -/
def famOf : Backend → Fam
  | .toasterB => .fQiskit
  | .aerB => .fQiskit
  | .qvmB => .fPyquil
  | .cirqB => .fCirq
  | .qsimB => .fQsim

/-- Observable steps of a harness run, in program order. `runCall` covers the
backend execute-and-fetch-result calls inside the timed region. -/
inductive Event where
  | gcDisabled
  | gcEnabled
  | colAdded (l : String)
  | buildCircuit (fm : Fam) (n : Nat)
  | getQc (n : Nat)
  | gcCollect
  | timerStart (b : Backend) (n : Nat)
  | runCall (b : Backend) (n : Nat) (shots : Nat)
  | timerStop (b : Backend) (n : Nat)
  | cellSet (l : String) (n : Nat)
  | plotSaved
  deriving DecidableEq, Repr

/-- The results DataFrame: a fixed row index, columns in insertion order, and
a cell log (newest first; a `none` value is a NaN cell). -/
structure Table where
  rows : List Nat
  cols : List String
  cells : List ((String × Nat) × Option Time)
  deriving DecidableEq, Repr

/-- `results[col] = np.nan`: registers the column (pandas keeps a single
column per label) and resets its cells to NaN. -/
def Table.addCol (tbl : Table) (l : String) : Table :=
  { tbl with
    cols := if l ∈ tbl.cols then tbl.cols else tbl.cols ++ [l]
    cells := tbl.cells.filter fun e => e.1.1 != l }

/-- `results[col][i] = v`: records a cell value. -/
def Table.setCell (tbl : Table) (l : String) (n : Nat) (v : Option Time) : Table :=
  { tbl with cells := ((l, n), v) :: tbl.cells }

/-- Cell lookup: most recent write to (column, row), if any. -/
def findCell : List ((String × Nat) × Option Time) → String → Nat → Option (Option Time)
  | [], _, _ => none
  | (k, v) :: rest, l, n => if k = (l, n) then some v else findCell rest l n

/-- The cell of the table at (column, row). -/
def Table.cellAt (tbl : Table) (l : String) (n : Nat) : Option (Option Time) :=
  findCell tbl.cells l n

/-- Process state threaded through the harness: the results table, the
process-wide automatic-gc flag, and the event trace. -/
structure HState where
  table : Table
  gcOn : Bool
  trace : List Event
  deriving DecidableEq, Repr

/-- Append one event to the trace. -/
def HState.emit (s : HState) (e : Event) : HState :=
  { s with trace := s.trace ++ [e] }

/-- `gc.disable()`. -/
def HState.gcDisable (s : HState) : HState :=
  { s with gcOn := false, trace := s.trace ++ [Event.gcDisabled] }

/-- `gc.enable()`. -/
def HState.gcEnable (s : HState) : HState :=
  { s with gcOn := true, trace := s.trace ++ [Event.gcEnabled] }

/-- Add a results column and record it. -/
def HState.addCol (s : HState) (l : String) : HState :=
  { s with table := s.table.addCol l, trace := s.trace ++ [Event.colAdded l] }

/-- Record a cell value. -/
def HState.setCell (s : HState) (l : String) (n : Nat) (v : Option Time) : HState :=
  { s with table := s.table.setCell l n v, trace := s.trace ++ [Event.cellSet l n] }

/-- External world of the harness: the version endpoints, backend
acquisition, and the timed run calls. Every field that can raise a Python
exception returns `Except Err`; a timed run maps (backend, qubit count,
repeat index) to the elapsed milliseconds of that sample. -/
structure Env where
  toasterVersion : Except Err String
  qvmVersion : Except Err String
  aerVersion : String
  cirqVersion : String
  getAerBackend : Except Err Unit
  getToasterBackend : Except Err Unit
  getQc : Nat → Except Err Unit
  run : Backend → Nat → Nat → Except Err Time

/-- `repeat = 4 if i <= 20 else 1`. -/
def repeatCount (n : Nat) : Nat := if n ≤ 20 then 4 else 1

/-- `range(from_qubits, to_qubits + 1)`. -/
def rangeList (f t : Nat) : List Nat := List.range' f (t + 1 - f)

/-- One repeat loop (`for r in range(repeat)`): before each sample force a
gc pass, take the start timestamp, run, take the end timestamp, and fold the
elapsed time with `elapsed if np.isnan(acc) else min(acc, elapsed)` (NaN is
`none`). An exception from the run call propagates immediately; the state is
returned alongside so the trace and table survive the abort. -/
def repeatLoop (sample : Nat → Except Err Time) (b : Backend) (n shots : Nat) :
    List Nat → Option Time → HState → Option Err × Option Time × HState
  | [], acc, s => (none, acc, s)
  | r :: rest, acc, s =>
      match sample r with
      | .error e =>
          (some e, acc,
            ((s.emit .gcCollect).emit (.timerStart b n)).emit (.runCall b n shots))
      | .ok elapsed =>
          repeatLoop sample b n shots rest
            (some (match acc with | none => elapsed | some a => min a elapsed))
            (((((s.emit .gcCollect).emit (.timerStart b n)).emit
                (.runCall b n shots))).emit (.timerStop b n))

/-- Column label of the Toaster backend, from the queried version. -/
def toasterLabel (v : String) : String := "Qiskit+Toaster " ++ v

/-- Column label of the Aer backend, from `__qiskit_version__["qiskit-aer"]`. -/
def aerLabel (v : String) : String := "Qiskit+Aer " ++ v

/-- Column label of the QVM backend, from the queried version. -/
def qvmLabel (v : String) : String := "pyQuil+QVM " ++ v

/-- Column label of the Cirq backend, from `cirq.__version__`. -/
def cirqLabel (v : String) : String := "Cirq " ++ v

/-- Body of the qubit loop of `benchmark_qft_qiskit` for one qubit count:
build the circuit, time the Toaster backend and record its cell, then the
Aer backend likewise. -/
def qiskitIter (env : Env) (colT colA : String) (n : Nat) (s : HState) : Option Err × HState :=
  match repeatLoop (env.run .toasterB n) .toasterB n 1
      (List.range (repeatCount n)) none (s.emit (.buildCircuit .fQiskit n)) with
  | (some e, _, s1) => (some e, s1)
  | (none, accT, s1) =>
      match repeatLoop (env.run .aerB n) .aerB n 1
          (List.range (repeatCount n)) none (s1.setCell colT n accT) with
      | (some e, _, s2) => (some e, s2)
      | (none, accA, s2) => (none, s2.setCell colA n accA)

/-- The qubit loop of `benchmark_qft_qiskit`. -/
def qiskitQubitLoop (env : Env) (colT colA : String) :
    List Nat → HState → Option Err × HState
  | [], s => (none, s)
  | n :: rest, s =>
      match qiskitIter env colT colA n s with
      | (some e, s1) => (some e, s1)
      | (none, s1) => qiskitQubitLoop env colT colA rest s1

/-- Embedding of `benchmark_qft_qiskit`: disable gc, query the Toaster
version endpoint, add both columns, acquire both backends, run the qubit
loop, re-enable gc. Any exception propagates, skipping everything after it
(in particular the trailing `gc.enable()`). -/
def benchmark_qft_qiskit (env : Env) (from_q to_q : Nat) (s : HState) : Option Err × HState :=
  match env.toasterVersion with
  | .error e => (some e, s.gcDisable)
  | .ok tv =>
      match env.getAerBackend with
      | .error e =>
          (some e, ((s.gcDisable.addCol (toasterLabel tv)).addCol (aerLabel env.aerVersion)))
      | .ok _ =>
          match env.getToasterBackend with
          | .error e =>
              (some e, ((s.gcDisable.addCol (toasterLabel tv)).addCol (aerLabel env.aerVersion)))
          | .ok _ =>
              match qiskitQubitLoop env (toasterLabel tv) (aerLabel env.aerVersion)
                  (rangeList from_q to_q)
                  ((s.gcDisable.addCol (toasterLabel tv)).addCol (aerLabel env.aerVersion)) with
              | (some e, s1) => (some e, s1)
              | (none, s1) => (none, s1.gcEnable)

/-- Body of the qubit loop of `benchmark_qft_pyquil` for one qubit count:
build and wrap the program, acquire the n-qubit QVM, time it, record the
cell. The program's numshots (set by `wrap_in_numshots_loop(1)`) is the shot
count of every run call. -/
def pyquilIter (env : Env) (colQ : String) (n : Nat) (s : HState) : Option Err × HState :=
  match env.getQc n with
  | .error e => (some e, s.emit (.buildCircuit .fPyquil n))
  | .ok _ =>
      match repeatLoop (env.run .qvmB n) .qvmB n
          (wrap_in_numshots_loop (qft_pyquil n) 1).numshots
          (List.range (repeatCount n)) none
          ((s.emit (.buildCircuit .fPyquil n)).emit (.getQc n)) with
      | (some e, _, s1) => (some e, s1)
      | (none, accQ, s1) => (none, s1.setCell colQ n accQ)

/-- The qubit loop of `benchmark_qft_pyquil`. -/
def pyquilQubitLoop (env : Env) (colQ : String) :
    List Nat → HState → Option Err × HState
  | [], s => (none, s)
  | n :: rest, s =>
      match pyquilIter env colQ n s with
      | (some e, s1) => (some e, s1)
      | (none, s1) => pyquilQubitLoop env colQ rest s1

/-- Embedding of `benchmark_qft_pyquil`. -/
def benchmark_qft_pyquil (env : Env) (from_q to_q : Nat) (s : HState) : Option Err × HState :=
  match env.qvmVersion with
  | .error e => (some e, s.gcDisable)
  | .ok qv =>
      match pyquilQubitLoop env (qvmLabel qv) (rangeList from_q to_q)
          (s.gcDisable.addCol (qvmLabel qv)) with
      | (some e, s1) => (some e, s1)
      | (none, s1) => (none, s1.gcEnable)

/-- Body of the qubit loop of `benchmark_qft_cirq` for one qubit count (the
`cirq.Simulator()` constructed first is a local object, not an external
call). -/
def cirqIter (env : Env) (colC : String) (n : Nat) (s : HState) : Option Err × HState :=
  match repeatLoop (env.run .cirqB n) .cirqB n 1
      (List.range (repeatCount n)) none (s.emit (.buildCircuit .fCirq n)) with
  | (some e, _, s1) => (some e, s1)
  | (none, accC, s1) => (none, s1.setCell colC n accC)

/-- The qubit loop of `benchmark_qft_cirq`. -/
def cirqQubitLoop (env : Env) (colC : String) :
    List Nat → HState → Option Err × HState
  | [], s => (none, s)
  | n :: rest, s =>
      match cirqIter env colC n s with
      | (some e, s1) => (some e, s1)
      | (none, s1) => cirqQubitLoop env colC rest s1

/-- Embedding of `benchmark_qft_cirq` (the version label is read from a
local field, so the pass header cannot raise). -/
def benchmark_qft_cirq (env : Env) (from_q to_q : Nat) (s : HState) : Option Err × HState :=
  match cirqQubitLoop env (cirqLabel env.cirqVersion) (rangeList from_q to_q)
      (s.gcDisable.addCol (cirqLabel env.cirqVersion)) with
  | (some e, s1) => (some e, s1)
  | (none, s1) => (none, s1.gcEnable)

/-- Body of the qubit loop of `benchmark_qft_qsim` for one qubit count.
`qsim.qsim_simulate` simulates the circuit text once per call. -/
def qsimIter (env : Env) (n : Nat) (s : HState) : Option Err × HState :=
  match repeatLoop (env.run .qsimB n) .qsimB n 1
      (List.range (repeatCount n)) none (s.emit (.buildCircuit .fQsim n)) with
  | (some e, _, s1) => (some e, s1)
  | (none, accS, s1) => (none, s1.setCell "qsim" n accS)

/-- The qubit loop of `benchmark_qft_qsim`. -/
def qsimQubitLoop (env : Env) :
    List Nat → HState → Option Err × HState
  | [], s => (none, s)
  | n :: rest, s =>
      match qsimIter env n s with
      | (some e, s1) => (some e, s1)
      | (none, s1) => qsimQubitLoop env rest s1

/-- Embedding of `benchmark_qft_qsim` (defined in the source but its call in
`benchmark_qft` is commented out). -/
def benchmark_qft_qsim (env : Env) (from_q to_q : Nat) (s : HState) : Option Err × HState :=
  match qsimQubitLoop env (rangeList from_q to_q) (s.gcDisable.addCol "qsim") with
  | (some e, s1) => (some e, s1)
  | (none, s1) => (none, s1.gcEnable)

/-- The empty results DataFrame with index `range(from_qubits, to_qubits+1)`
created at harness start. -/
def initState (f t : Nat) : HState :=
  { table := { rows := rangeList f t, cols := [], cells := [] }
    gcOn := true
    trace := [] }

/-- Embedding of `benchmark_qft`: create the table, run the Qiskit, pyQuil
and Cirq passes in order (the qsim pass is commented out in the source),
then plot and save the chart. Any exception propagates and aborts the whole
invocation at that point. -/
def benchmark_qft (env : Env) (from_q to_q : Nat) : Option Err × HState :=
  match benchmark_qft_qiskit env from_q to_q (initState from_q to_q) with
  | (some e, s1) => (some e, s1)
  | (none, s1) =>
      match benchmark_qft_pyquil env from_q to_q s1 with
      | (some e, s2) => (some e, s2)
      | (none, s2) =>
          match benchmark_qft_cirq env from_q to_q s2 with
          | (some e, s3) => (some e, s3)
          | (none, s3) => (none, s3.emit .plotSaved)

/-- The running fold of the repeat loop (`elapsed if np.isnan(acc) else
min(acc, elapsed)`). -/
def foldBest (acc : Option Time) (ts : List Time) : Option Time :=
  ts.foldl (fun a e => some (match a with | none => e | some x => min x e)) acc

/-- Best-of aggregation of a sample list, starting from NaN. -/
def bestOf (ts : List Time) : Option Time := foldBest none ts

/-- The aggregated value of the repeat samples of one (backend, qubit count)
pair in a fully successful run. -/
def bestSamples (runT : Backend → Nat → Nat → Time) (b : Backend) (n : Nat) : Option Time :=
  bestOf ((List.range (repeatCount n)).map (runT b n))

/-- A total environment: every external call succeeds. `runT` gives the
elapsed milliseconds of each (backend, qubit count, repeat index) sample. -/
structure TEnv where
  toasterV : String
  qvmV : String
  aerV : String
  cirqV : String
  runT : Backend → Nat → Nat → Time

/-- The fallible environment in which every call of `te` succeeds. -/
def TEnv.toEnv (te : TEnv) : Env :=
  { toasterVersion := .ok te.toasterV
    qvmVersion := .ok te.qvmV
    aerVersion := te.aerV
    cirqVersion := te.cirqV
    getAerBackend := .ok ()
    getToasterBackend := .ok ()
    getQc := fun _ => .ok ()
    run := fun b n r => .ok (te.runT b n r) }

/-- Events of one successful timed sample. -/
def sampleBlock (b : Backend) (n shots : Nat) : List Event :=
  [.gcCollect, .timerStart b n, .runCall b n shots, .timerStop b n]

/-- Events of a successful repeat loop of `rep` samples. -/
def repeatTrace (b : Backend) (n shots rep : Nat) : List Event :=
  (List.range rep).flatMap fun _ => sampleBlock b n shots

/-- Events of one successful Qiskit-pass qubit iteration. -/
def qiskitIterTrace (colT colA : String) (n : Nat) : List Event :=
  .buildCircuit .fQiskit n ::
    (repeatTrace .toasterB n 1 (repeatCount n)
      ++ [.cellSet colT n]
      ++ repeatTrace .aerB n 1 (repeatCount n)
      ++ [.cellSet colA n])

/-- Cells written by a successful Qiskit-pass qubit loop (newest first). -/
def qiskitCells (runT : Backend → Nat → Nat → Time) (colT colA : String) :
    List Nat → List ((String × Nat) × Option Time)
  | [] => []
  | n :: rest =>
      qiskitCells runT colT colA rest
        ++ [((colA, n), bestSamples runT .aerB n), ((colT, n), bestSamples runT .toasterB n)]

/-- Events of a successful Qiskit pass. -/
def qiskitPassTrace (colT colA : String) (f t : Nat) : List Event :=
  .gcDisabled :: .colAdded colT :: .colAdded colA ::
    ((rangeList f t).flatMap (qiskitIterTrace colT colA) ++ [.gcEnabled])

/-- Events of one successful pyQuil-pass qubit iteration. -/
def pyquilIterTrace (colQ : String) (n : Nat) : List Event :=
  .buildCircuit .fPyquil n :: .getQc n ::
    (repeatTrace .qvmB n 1 (repeatCount n) ++ [.cellSet colQ n])

/-- Cells written by a successful pyQuil-pass qubit loop (newest first). -/
def pyquilCells (runT : Backend → Nat → Nat → Time) (colQ : String) :
    List Nat → List ((String × Nat) × Option Time)
  | [] => []
  | n :: rest => pyquilCells runT colQ rest ++ [((colQ, n), bestSamples runT .qvmB n)]

/-- Events of a successful pyQuil pass. -/
def pyquilPassTrace (colQ : String) (f t : Nat) : List Event :=
  .gcDisabled :: .colAdded colQ ::
    ((rangeList f t).flatMap (pyquilIterTrace colQ) ++ [.gcEnabled])

/-- Events of one successful Cirq-pass qubit iteration. -/
def cirqIterTrace (colC : String) (n : Nat) : List Event :=
  .buildCircuit .fCirq n ::
    (repeatTrace .cirqB n 1 (repeatCount n) ++ [.cellSet colC n])

/-- Cells written by a successful Cirq-pass qubit loop (newest first). -/
def cirqCells (runT : Backend → Nat → Nat → Time) (colC : String) :
    List Nat → List ((String × Nat) × Option Time)
  | [] => []
  | n :: rest => cirqCells runT colC rest ++ [((colC, n), bestSamples runT .cirqB n)]

/-- Events of a successful Cirq pass. -/
def cirqPassTrace (colC : String) (f t : Nat) : List Event :=
  .gcDisabled :: .colAdded colC ::
    ((rangeList f t).flatMap (cirqIterTrace colC) ++ [.gcEnabled])

/-- The whole event trace of a fully successful harness invocation. -/
def fullTrace (te : TEnv) (f t : Nat) : List Event :=
  qiskitPassTrace (toasterLabel te.toasterV) (aerLabel te.aerV) f t
    ++ pyquilPassTrace (qvmLabel te.qvmV) f t
    ++ cirqPassTrace (cirqLabel te.cirqV) f t
    ++ [.plotSaved]

/-- The whole cell log of a fully successful harness invocation. -/
def fullCells (te : TEnv) (f t : Nat) : List ((String × Nat) × Option Time) :=
  cirqCells te.runT (cirqLabel te.cirqV) (rangeList f t)
    ++ pyquilCells te.runT (qvmLabel te.qvmV) (rangeList f t)
    ++ qiskitCells te.runT (toasterLabel te.toasterV) (aerLabel te.aerV) (rangeList f t)

/-- Checks that an event is one a live backend pass may emit: no plot event,
every run call single-shot, and nothing belonging to the qsim pass. -/
def tame : Event → Bool
  | .plotSaved => false
  | .runCall b _ sh => (sh == 1) && !(b == .qsimB)
  | .timerStart b _ => !(b == .qsimB)
  | .timerStop b _ => !(b == .qsimB)
  | .buildCircuit fm _ => !(fm == .fQsim)
  | .colAdded l => !(l == "qsim")
  | _ => true

/-- Scans a trace checking the timing discipline: every start timestamp is
immediately preceded by a forced gc pass and opens a region closed by the
matching stop timestamp; inside a region only the run call occurs; a timed
sample at qubit count n only happens after the matching circuit was built
(and, for the QVM backend, after the n-qubit QVM was acquired). A trace that
ends inside a region was aborted there by an exception, which is fine. The
`built` and `qcs` accumulators hold the circuits built and QVM handles
acquired so far; `region` is the open timed region, if any. -/
def disc (built : List (Fam × Nat)) (qcs : List Nat) :
    Option (Backend × Nat) → List Event → Bool
  | _, [] => true
  | some (b, n), .runCall b' n' _ :: rest =>
      decide (b' = b) && decide (n' = n) && disc built qcs (some (b, n)) rest
  | some (b, n), .timerStop b' n' :: rest =>
      decide (b' = b) && decide (n' = n) && disc built qcs none rest
  | some _, _ :: _ => false
  | none, .buildCircuit fm n :: rest => disc ((fm, n) :: built) qcs none rest
  | none, .getQc n :: rest => disc built (n :: qcs) none rest
  | none, .gcCollect :: .timerStart b n :: rest =>
      decide ((famOf b, n) ∈ built) && (!(b == .qvmB) || decide (n ∈ qcs))
        && disc built qcs (some (b, n)) rest
  | none, .timerStart _ _ :: _ => false
  | none, _ :: rest => disc built qcs none rest

/-- A concrete total environment: empty version strings, every sample 0 ms. -/
def teZero : TEnv :=
  { toasterV := "", qvmV := "", aerV := "", cirqV := "", runT := fun _ _ _ => 0 }

/-- A concrete environment whose Toaster version endpoint is unreachable. -/
def envFail : Env :=
  { toasterVersion := .error "connection refused"
    qvmVersion := .ok ""
    aerVersion := ""
    cirqVersion := ""
    getAerBackend := .ok ()
    getToasterBackend := .ok ()
    getQc := fun _ => .ok ()
    run := fun _ _ _ => .ok 0 }

/-- The column label of each backend in a fully successful run. -/
def TEnv.labelOf (te : TEnv) : Backend → String
  | .toasterB => toasterLabel te.toasterV
  | .aerB => aerLabel te.aerV
  | .qvmB => qvmLabel te.qvmV
  | .cirqB => cirqLabel te.cirqV
  | .qsimB => "qsim"

theorem qiskit_spec_eq (n : Nat) : qiskitToSpec (qft_qiskit n) = qftSpec n := by
  simp [qiskitToSpec, qft_qiskit, qftSpec, List.map_flatMap, QiskitInstr.toSpec,
    Function.comp_def]

theorem pyquil_spec_eq (n : Nat) : pyquilToSpec (qft_pyquil n) = qftSpec n := by
  simp [pyquilToSpec, qft_pyquil, qftSpec, List.map_flatMap, PyquilInstr.toSpec,
    Function.comp_def]

theorem cirq_spec_eq (n : Nat) : cirqToSpec (qft_cirq n) = qftSpec n := by
  simp [cirqToSpec, qft_cirq, qftSpec, List.map_flatMap, CirqOp.toSpec,
    Function.comp_def]

theorem qsimInner_toSpec (j : Nat) : ∀ (ks : List Nat) (t : Nat) (acc : List QsimInstr),
    (qsimInner j ks (t, acc)).2.map QsimInstr.toSpec
      = acc.map QsimInstr.toSpec ++ ks.map fun k => GateOp.cphase (j - k) j k := by
  intro ks
  induction ks with
  | nil => intro t acc; simp [qsimInner]
  | cons k rest ih =>
      intro t acc
      rw [qsimInner, ih]
      simp [QsimInstr.toSpec]

theorem qsimLoop_toSpec : ∀ (js : List Nat) (t : Nat) (acc : List QsimInstr),
    (qsimLoop js (t, acc)).2.map QsimInstr.toSpec
      = acc.map QsimInstr.toSpec
        ++ js.flatMap fun j =>
            ((List.range j).map fun k => GateOp.cphase (j - k) j k) ++ [GateOp.hGate j] := by
  intro js
  induction js with
  | nil => intro t acc; simp [qsimLoop]
  | cons j rest ih =>
      intro t acc
      rw [qsimLoop, ih, List.map_append, qsimInner_toSpec]
      simp [QsimInstr.toSpec]

theorem qsim_spec_eq (n : Nat) : qsimToSpec (qft_qsim n) = qftSpecGates n := by
  rw [qsimToSpec, qft_qsim]
  rw [qsimLoop_toSpec]
  simp [qftSpecGates]

theorem qftSpec_split (n : Nat) :
    qftSpec n = qftSpecGates n ++ (List.range n).map GateOp.measureQ := rfl

theorem qftSpecGates_succ (n : Nat) :
    qftSpecGates (n + 1)
      = qftSpecGates n
        ++ (((List.range n).map fun k => GateOp.cphase (n - k) n k) ++ [GateOp.hGate n]) := by
  rw [qftSpecGates, qftSpecGates]
  rw [show List.range (n+1) = List.range n ++ [n] by simpa using List.range_succ (n := n)]
  simp

theorem cp_row_countP (p : GateOp → Bool) (m : Nat) (h : ∀ d c t, p (GateOp.cphase d c t) = false) :
    ((List.range m).map fun k => GateOp.cphase (m - k) m k).countP p = 0 := by
  rw [List.countP_eq_zero]
  intro a ha
  simp only [List.mem_map] at ha
  obtain ⟨k, _, rfl⟩ := ha
  simp [h]

theorem meas_row_countP (p : GateOp → Bool) (n : Nat) (h : ∀ q, p (GateOp.measureQ q) = false) :
    ((List.range n).map GateOp.measureQ).countP p = 0 := by
  rw [List.countP_eq_zero]
  intro a ha
  simp only [List.mem_map] at ha
  obtain ⟨k, _, rfl⟩ := ha
  simp [h]

theorem countH_gates (n : Nat) : (qftSpecGates n).countP GateOp.isH = n := by
  induction n with
  | zero => rfl
  | succ m ih =>
      rw [qftSpecGates_succ, List.countP_append, ih, List.countP_append,
        cp_row_countP GateOp.isH m (fun _ _ _ => rfl)]
      rfl

theorem countMeas_gates (n : Nat) : (qftSpecGates n).countP GateOp.isMeas = 0 := by
  induction n with
  | zero => rfl
  | succ m ih =>
      rw [qftSpecGates_succ, List.countP_append, ih, List.countP_append,
        cp_row_countP GateOp.isMeas m (fun _ _ _ => rfl)]
      rfl

theorem countCP_gates_two (n : Nat) : 2 * (qftSpecGates n).countP GateOp.isCP = n * (n - 1) := by
  induction n with
  | zero => rfl
  | succ m ih =>
      rw [qftSpecGates_succ, List.countP_append, List.countP_append]
      have hm : ((List.range m).map fun k => GateOp.cphase (m - k) m k).countP GateOp.isCP = m := by
        rw [List.countP_eq_length.2, List.length_map, List.length_range]
        intro a ha
        simp only [List.mem_map] at ha
        obtain ⟨k, _, rfl⟩ := ha
        rfl
      rw [hm, show ([GateOp.hGate m]).countP GateOp.isCP = 0 from rfl]
      cases m with
      | zero => rfl
      | succ p =>
          simp only [Nat.succ_sub_one] at ih ⊢
          nlinarith [ih]

theorem countH_spec (n : Nat) : (qftSpec n).countP GateOp.isH = n := by
  rw [qftSpec_split, List.countP_append, countH_gates,
    meas_row_countP GateOp.isH n (fun _ => rfl)]
  omega

theorem countCP_spec (n : Nat) : (qftSpec n).countP GateOp.isCP = n * (n - 1) / 2 := by
  have h2 : 2 * (qftSpec n).countP GateOp.isCP = n * (n - 1) := by
    rw [qftSpec_split, List.countP_append,
      meas_row_countP GateOp.isCP n (fun _ => rfl), Nat.add_zero, countCP_gates_two]
  generalize hq : n * (n - 1) = q at *
  omega

theorem countMeas_spec (n : Nat) : (qftSpec n).countP GateOp.isMeas = n := by
  rw [qftSpec_split, List.countP_append, countMeas_gates]
  have h1 : ((List.range n).map GateOp.measureQ).countP GateOp.isMeas = n := by
    rw [List.countP_eq_length.2, List.length_map, List.length_range]
    intro a ha
    simp only [List.mem_map] at ha
    obtain ⟨k, _, rfl⟩ := ha
    rfl
  rw [h1]
  omega

/-- Two appended strings differ whenever their left parts differ at an index
both left parts cover. -/
theorem getElem?_append_left' : ∀ (l1 l2 : List Char) (i : Nat), i < l1.length →
    (l1 ++ l2)[i]? = l1[i]? := by
  intro l1 l2 i h
  rw [List.getElem?_append, if_pos h]

theorem append_ne_append (p q : String) (i : Nat) (hp : i < p.data.length)
    (hq : i < q.data.length) (hne : p.data[i]? ≠ q.data[i]?) (a b : String) :
    p ++ a ≠ q ++ b := by
  intro h
  have hd := congrArg String.data h
  rw [String.data_append, String.data_append] at hd
  have h1 := getElem?_append_left' p.data a.data i hp
  have h2 := getElem?_append_left' q.data b.data i hq
  have := congrArg (fun l => l[i]?) hd
  simp only [h1, h2] at this
  exact hne this

/-- A string extending a long left part never equals a shorter literal. -/
theorem append_ne_short (p q : String) (h : q.data.length < p.data.length) (a : String) :
    p ++ a ≠ q := by
  intro hh
  have hd := congrArg (fun s => s.data.length) hh
  simp only [String.data_append, List.length_append] at hd
  omega

theorem aer_ne_toaster (a b : String) : aerLabel a ≠ toasterLabel b :=
  append_ne_append "Qiskit+Aer " "Qiskit+Toaster " 7 (by decide) (by decide) (by decide) a b

theorem qvm_ne_toaster (a b : String) : qvmLabel a ≠ toasterLabel b :=
  append_ne_append "pyQuil+QVM " "Qiskit+Toaster " 0 (by decide) (by decide) (by decide) a b

theorem qvm_ne_aer (a b : String) : qvmLabel a ≠ aerLabel b :=
  append_ne_append "pyQuil+QVM " "Qiskit+Aer " 0 (by decide) (by decide) (by decide) a b

theorem cirq_ne_toaster (a b : String) : cirqLabel a ≠ toasterLabel b :=
  append_ne_append "Cirq " "Qiskit+Toaster " 0 (by decide) (by decide) (by decide) a b

theorem cirq_ne_aer (a b : String) : cirqLabel a ≠ aerLabel b :=
  append_ne_append "Cirq " "Qiskit+Aer " 0 (by decide) (by decide) (by decide) a b

theorem cirq_ne_qvm (a b : String) : cirqLabel a ≠ qvmLabel b :=
  append_ne_append "Cirq " "pyQuil+QVM " 0 (by decide) (by decide) (by decide) a b

theorem toaster_ne_qsim (a : String) : toasterLabel a ≠ "qsim" :=
  append_ne_short "Qiskit+Toaster " "qsim" (by decide) a

theorem aer_ne_qsim (a : String) : aerLabel a ≠ "qsim" :=
  append_ne_short "Qiskit+Aer " "qsim" (by decide) a

theorem qvm_ne_qsim (a : String) : qvmLabel a ≠ "qsim" :=
  append_ne_short "pyQuil+QVM " "qsim" (by decide) a

theorem cirq_ne_qsim (a : String) : cirqLabel a ≠ "qsim" :=
  append_ne_short "Cirq " "qsim" (by decide) a

theorem foldBest_spec : ∀ (ts : List Time) (acc : Option Time) (m : Time),
    foldBest acc ts = some m →
      (acc = some m ∨ m ∈ ts) ∧ (∀ x ∈ ts, m ≤ x) ∧ (∀ a, acc = some a → m ≤ a) := by
  intro ts
  induction ts with
  | nil =>
      intro acc m h
      simp only [foldBest, List.foldl_nil] at h
      refine ⟨Or.inl h, by simp, ?_⟩
      intro a ha
      rw [ha] at h
      exact le_of_eq (Option.some_injective _ h.symm) |>.trans (le_refl a)
  | cons x rest ih =>
      intro acc m h
      cases acc with
      | none =>
          have h' : foldBest (some x) rest = some m := by simpa [foldBest] using h
          obtain ⟨hmem, hle, hacc⟩ := ih (some x) m h'
          have hmx : m ≤ x := hacc x rfl
          refine ⟨Or.inr ?_, ?_, by simp⟩
          · rcases hmem with hm | hm
            · have : x = m := Option.some_injective _ hm
              simp [this]
            · exact List.mem_cons_of_mem x hm
          · intro y hy
            rcases List.mem_cons.1 hy with rfl | hy'
            · exact hmx
            · exact hle y hy'
      | some v =>
          have h' : foldBest (some (min v x)) rest = some m := by simpa [foldBest] using h
          obtain ⟨hmem, hle, hacc⟩ := ih _ m h'
          have hmvx : m ≤ min v x := hacc _ rfl
          refine ⟨?_, ?_, ?_⟩
          · rcases hmem with hm | hm
            · have hm' : min v x = m := Option.some_injective _ hm
              rcases le_total v x with hvx | hxv
              · left
                rw [min_eq_left hvx] at hm'
                simp [hm']
              · right
                rw [min_eq_right hxv] at hm'
                simp [hm']
            · exact Or.inr (List.mem_cons_of_mem x hm)
          · intro y hy
            rcases List.mem_cons.1 hy with rfl | hy'
            · exact hmvx.trans (min_le_right v y)
            · exact hle y hy'
          · intro a ha
            have hva : v = a := Option.some_injective _ ha
            subst hva
            exact hmvx.trans (min_le_left v x)

theorem foldBest_isSome : ∀ (ts : List Time) (acc : Option Time),
    acc.isSome = true ∨ ts ≠ [] → (foldBest acc ts).isSome = true := by
  intro ts
  induction ts with
  | nil =>
      intro acc h
      rcases h with h | h
      · simpa [foldBest] using h
      · simp at h
  | cons x rest ih =>
      intro acc h
      cases acc with
      | none =>
          rw [show foldBest none (x :: rest) = foldBest (some x) rest from rfl]
          exact ih _ (Or.inl rfl)
      | some v =>
          rw [show foldBest (some v) (x :: rest) = foldBest (some (min v x)) rest from rfl]
          exact ih _ (Or.inl rfl)

theorem repeatLoop_ok (g : Nat → Time) (b : Backend) (n shots : Nat) :
    ∀ (rs : List Nat) (acc : Option Time) (s : HState),
    repeatLoop (fun r => Except.ok (g r)) b n shots rs acc s
      = (none, foldBest acc (rs.map g),
         { s with trace := s.trace ++ rs.flatMap fun _ => sampleBlock b n shots }) := by
  intro rs
  induction rs with
  | nil => intro acc s; simp [repeatLoop, foldBest]
  | cons r rest ih =>
      intro acc s
      simp only [repeatLoop]
      rw [ih]
      simp [HState.emit, sampleBlock, foldBest]

theorem qiskitIter_ok (te : TEnv) (colT colA : String) (n : Nat) (s : HState) :
    qiskitIter (TEnv.toEnv te) colT colA n s
      = (none,
         { s with
           table := { s.table with cells :=
             ((colA, n), bestSamples te.runT .aerB n)
               :: ((colT, n), bestSamples te.runT .toasterB n) :: s.table.cells }
           trace := s.trace ++ qiskitIterTrace colT colA n }) := by
  rw [qiskitIter]
  simp only [show (TEnv.toEnv te).run = fun b n r => Except.ok (te.runT b n r) from rfl,
    repeatLoop_ok]
  simp [HState.emit, HState.setCell, Table.setCell, qiskitIterTrace, repeatTrace,
    bestSamples, bestOf]

theorem qiskitQubitLoop_ok (te : TEnv) (colT colA : String) :
    ∀ (ns : List Nat) (s : HState),
    qiskitQubitLoop (TEnv.toEnv te) colT colA ns s
      = (none,
         { s with
           table := { s.table with cells := qiskitCells te.runT colT colA ns ++ s.table.cells }
           trace := s.trace ++ ns.flatMap (qiskitIterTrace colT colA) }) := by
  intro ns
  induction ns with
  | nil => intro s; simp [qiskitQubitLoop, qiskitCells]
  | cons n rest ih =>
      intro s
      rw [qiskitQubitLoop]
      simp only [qiskitIter_ok]
      rw [ih]
      simp [qiskitCells]

theorem benchmark_qft_qiskit_ok (te : TEnv) (f t : Nat) (s : HState)
    (hT : toasterLabel te.toasterV ∉ s.table.cols)
    (hA : aerLabel te.aerV ∉ s.table.cols)
    (hcells : ∀ e ∈ s.table.cells,
      e.1.1 ≠ toasterLabel te.toasterV ∧ e.1.1 ≠ aerLabel te.aerV) :
    benchmark_qft_qiskit (TEnv.toEnv te) f t s
      = (none,
         { table :=
             { rows := s.table.rows
               cols := s.table.cols ++ [toasterLabel te.toasterV, aerLabel te.aerV]
               cells := qiskitCells te.runT (toasterLabel te.toasterV) (aerLabel te.aerV)
                          (rangeList f t) ++ s.table.cells }
           gcOn := true
           trace := s.trace
             ++ qiskitPassTrace (toasterLabel te.toasterV) (aerLabel te.aerV) f t }) := by
  rw [benchmark_qft_qiskit]
  simp only [show (TEnv.toEnv te).toasterVersion = Except.ok te.toasterV from rfl,
    show (TEnv.toEnv te).getAerBackend = Except.ok () from rfl,
    show (TEnv.toEnv te).getToasterBackend = Except.ok () from rfl,
    show (TEnv.toEnv te).aerVersion = te.aerV from rfl,
    qiskitQubitLoop_ok]
  have hfT : s.table.cells.filter (fun e => e.1.1 != toasterLabel te.toasterV) = s.table.cells := by
    rw [List.filter_eq_self]
    intro e he
    simpa using (hcells e he).1
  have hfA : s.table.cells.filter (fun e => e.1.1 != aerLabel te.aerV) = s.table.cells := by
    rw [List.filter_eq_self]
    intro e he
    simpa using (hcells e he).2
  simp [HState.gcDisable, HState.gcEnable, HState.addCol, Table.addCol, hT, hA,
    aer_ne_toaster, hfT, hfA, qiskitPassTrace]

theorem pyquilIter_ok (te : TEnv) (colQ : String) (n : Nat) (s : HState) :
    pyquilIter (TEnv.toEnv te) colQ n s
      = (none,
         { s with
           table := { s.table with cells :=
             ((colQ, n), bestSamples te.runT .qvmB n) :: s.table.cells }
           trace := s.trace ++ pyquilIterTrace colQ n }) := by
  rw [pyquilIter]
  simp only [show (TEnv.toEnv te).run = fun b n r => Except.ok (te.runT b n r) from rfl,
    show (TEnv.toEnv te).getQc = fun _ => Except.ok () from rfl,
    repeatLoop_ok]
  simp [HState.emit, HState.setCell, Table.setCell, pyquilIterTrace, repeatTrace,
    bestSamples, bestOf, wrap_in_numshots_loop, qft_pyquil]

theorem pyquilQubitLoop_ok (te : TEnv) (colQ : String) :
    ∀ (ns : List Nat) (s : HState),
    pyquilQubitLoop (TEnv.toEnv te) colQ ns s
      = (none,
         { s with
           table := { s.table with cells := pyquilCells te.runT colQ ns ++ s.table.cells }
           trace := s.trace ++ ns.flatMap (pyquilIterTrace colQ) }) := by
  intro ns
  induction ns with
  | nil => intro s; simp [pyquilQubitLoop, pyquilCells]
  | cons n rest ih =>
      intro s
      rw [pyquilQubitLoop]
      simp only [pyquilIter_ok]
      rw [ih]
      simp [pyquilCells]

theorem benchmark_qft_pyquil_ok (te : TEnv) (f t : Nat) (s : HState)
    (hQ : qvmLabel te.qvmV ∉ s.table.cols)
    (hcells : ∀ e ∈ s.table.cells, e.1.1 ≠ qvmLabel te.qvmV) :
    benchmark_qft_pyquil (TEnv.toEnv te) f t s
      = (none,
         { table :=
             { rows := s.table.rows
               cols := s.table.cols ++ [qvmLabel te.qvmV]
               cells := pyquilCells te.runT (qvmLabel te.qvmV) (rangeList f t)
                          ++ s.table.cells }
           gcOn := true
           trace := s.trace ++ pyquilPassTrace (qvmLabel te.qvmV) f t }) := by
  rw [benchmark_qft_pyquil]
  simp only [show (TEnv.toEnv te).qvmVersion = Except.ok te.qvmV from rfl,
    pyquilQubitLoop_ok]
  have hf : s.table.cells.filter (fun e => e.1.1 != qvmLabel te.qvmV) = s.table.cells := by
    rw [List.filter_eq_self]
    intro e he
    simpa using hcells e he
  simp [HState.gcDisable, HState.gcEnable, HState.addCol, Table.addCol, hQ, hf,
    pyquilPassTrace]

theorem cirqIter_ok (te : TEnv) (colC : String) (n : Nat) (s : HState) :
    cirqIter (TEnv.toEnv te) colC n s
      = (none,
         { s with
           table := { s.table with cells :=
             ((colC, n), bestSamples te.runT .cirqB n) :: s.table.cells }
           trace := s.trace ++ cirqIterTrace colC n }) := by
  rw [cirqIter]
  simp only [show (TEnv.toEnv te).run = fun b n r => Except.ok (te.runT b n r) from rfl,
    repeatLoop_ok]
  simp [HState.emit, HState.setCell, Table.setCell, cirqIterTrace, repeatTrace,
    bestSamples, bestOf]

theorem cirqQubitLoop_ok (te : TEnv) (colC : String) :
    ∀ (ns : List Nat) (s : HState),
    cirqQubitLoop (TEnv.toEnv te) colC ns s
      = (none,
         { s with
           table := { s.table with cells := cirqCells te.runT colC ns ++ s.table.cells }
           trace := s.trace ++ ns.flatMap (cirqIterTrace colC) }) := by
  intro ns
  induction ns with
  | nil => intro s; simp [cirqQubitLoop, cirqCells]
  | cons n rest ih =>
      intro s
      rw [cirqQubitLoop]
      simp only [cirqIter_ok]
      rw [ih]
      simp [cirqCells]

theorem benchmark_qft_cirq_ok (te : TEnv) (f t : Nat) (s : HState)
    (hC : cirqLabel te.cirqV ∉ s.table.cols)
    (hcells : ∀ e ∈ s.table.cells, e.1.1 ≠ cirqLabel te.cirqV) :
    benchmark_qft_cirq (TEnv.toEnv te) f t s
      = (none,
         { table :=
             { rows := s.table.rows
               cols := s.table.cols ++ [cirqLabel te.cirqV]
               cells := cirqCells te.runT (cirqLabel te.cirqV) (rangeList f t)
                          ++ s.table.cells }
           gcOn := true
           trace := s.trace ++ cirqPassTrace (cirqLabel te.cirqV) f t }) := by
  rw [benchmark_qft_cirq]
  simp only [show (TEnv.toEnv te).cirqVersion = te.cirqV from rfl, cirqQubitLoop_ok]
  have hf : s.table.cells.filter (fun e => e.1.1 != cirqLabel te.cirqV) = s.table.cells := by
    rw [List.filter_eq_self]
    intro e he
    simpa using hcells e he
  simp [HState.gcDisable, HState.gcEnable, HState.addCol, Table.addCol, hC, hf,
    cirqPassTrace]

theorem mem_qiskitCells (runT : Backend → Nat → Nat → Time) (colT colA : String) :
    ∀ (ns : List Nat) (e : (String × Nat) × Option Time),
    e ∈ qiskitCells runT colT colA ns → e.1.1 = colT ∨ e.1.1 = colA := by
  intro ns
  induction ns with
  | nil => intro e he; simp [qiskitCells] at he
  | cons n rest ih =>
      intro e he
      rw [qiskitCells] at he
      rcases List.mem_append.1 he with h | h
      · exact ih e h
      · rcases List.mem_cons.1 h with rfl | h'
        · exact Or.inr rfl
        · rcases List.mem_singleton.1 h' with rfl
          exact Or.inl rfl

theorem mem_pyquilCells (runT : Backend → Nat → Nat → Time) (colQ : String) :
    ∀ (ns : List Nat) (e : (String × Nat) × Option Time),
    e ∈ pyquilCells runT colQ ns → e.1.1 = colQ := by
  intro ns
  induction ns with
  | nil => intro e he; simp [pyquilCells] at he
  | cons n rest ih =>
      intro e he
      rw [pyquilCells] at he
      rcases List.mem_append.1 he with h | h
      · exact ih e h
      · rcases List.mem_singleton.1 h with rfl
        rfl

theorem mem_cirqCells (runT : Backend → Nat → Nat → Time) (colC : String) :
    ∀ (ns : List Nat) (e : (String × Nat) × Option Time),
    e ∈ cirqCells runT colC ns → e.1.1 = colC := by
  intro ns
  induction ns with
  | nil => intro e he; simp [cirqCells] at he
  | cons n rest ih =>
      intro e he
      rw [cirqCells] at he
      rcases List.mem_append.1 he with h | h
      · exact ih e h
      · rcases List.mem_singleton.1 h with rfl
        rfl

/-- Explicit description of a fully successful harness invocation: no error,
the row index is the requested range, the four backend columns in insertion
order, all cells filled with best-of samples, gc back on, and the trace is
the concatenation of the three pass traces followed by the plot. -/
theorem benchmark_qft_tenv (te : TEnv) (f t : Nat) :
    benchmark_qft (TEnv.toEnv te) f t
      = (none,
         { table :=
             { rows := rangeList f t
               cols := [toasterLabel te.toasterV, aerLabel te.aerV,
                        qvmLabel te.qvmV, cirqLabel te.cirqV]
               cells := fullCells te f t }
           gcOn := true
           trace := fullTrace te f t }) := by
  rw [benchmark_qft]
  rw [benchmark_qft_qiskit_ok te f t (initState f t) (by simp [initState])
    (by simp [initState]) (by simp [initState])]
  dsimp only
  rw [benchmark_qft_pyquil_ok te f t _
    (by simp [initState, qvm_ne_toaster, qvm_ne_aer])
    (by
      intro e he
      simp only [initState, List.append_nil] at he
      rcases mem_qiskitCells te.runT _ _ _ e he with h | h
      · rw [h]
        intro hc
        exact qvm_ne_toaster te.qvmV te.toasterV hc.symm
      · rw [h]
        intro hc
        exact qvm_ne_aer te.qvmV te.aerV hc.symm)]
  dsimp only
  rw [benchmark_qft_cirq_ok te f t _
    (by simp [initState, cirq_ne_toaster, cirq_ne_aer, cirq_ne_qvm])
    (by
      intro e he
      simp only [initState, List.append_nil] at he
      rcases List.mem_append.1 he with h | h
      · have hq := mem_pyquilCells te.runT _ _ e h
        rw [hq]
        intro hc
        exact cirq_ne_qvm te.cirqV te.qvmV hc.symm
      · rcases mem_qiskitCells te.runT _ _ _ e h with h' | h'
        · rw [h']
          intro hc
          exact cirq_ne_toaster te.cirqV te.toasterV hc.symm
        · rw [h']
          intro hc
          exact cirq_ne_aer te.cirqV te.aerV hc.symm)]
  dsimp only
  simp [initState, HState.emit, fullTrace, fullCells]

theorem repeatLoop_state (sample : Nat → Except Err Time) (b : Backend) (n sh : Nat) :
    ∀ (rs : List Nat) (acc : Option Time) (s : HState),
    (repeatLoop sample b n sh rs acc s).2.2.table = s.table
      ∧ (repeatLoop sample b n sh rs acc s).2.2.gcOn = s.gcOn := by
  intro rs
  induction rs with
  | nil => intro acc s; exact ⟨rfl, rfl⟩
  | cons r rest ih =>
      intro acc s
      rw [repeatLoop]
      cases hr : sample r with
      | error e => exact ⟨rfl, rfl⟩
      | ok v =>
          have := ih (some (match acc with | none => v | some a => min a v))
            (((((s.emit .gcCollect).emit (.timerStart b n)).emit
                (.runCall b n sh))).emit (.timerStop b n))
          simpa [HState.emit] using this

theorem qiskitIter_state (env : Env) (cT cA : String) (n : Nat) (s : HState) :
    (qiskitIter env cT cA n s).2.table.rows = s.table.rows
      ∧ (qiskitIter env cT cA n s).2.table.cols = s.table.cols
      ∧ (qiskitIter env cT cA n s).2.gcOn = s.gcOn := by
  rw [qiskitIter]
  rcases h1 : repeatLoop (env.run .toasterB n) .toasterB n 1
      (List.range (repeatCount n)) none (s.emit (.buildCircuit .fQiskit n)) with ⟨e1, acc1, s1⟩
  have hs1 := repeatLoop_state (env.run .toasterB n) .toasterB n 1
    (List.range (repeatCount n)) none (s.emit (.buildCircuit .fQiskit n))
  rw [h1] at hs1
  obtain ⟨ht1, hg1⟩ := hs1
  simp only [HState.emit] at ht1 hg1
  cases e1 with
  | some e => exact ⟨by simp [ht1], by simp [ht1], by simp [hg1]⟩
  | none =>
      rcases h2 : repeatLoop (env.run .aerB n) .aerB n 1
          (List.range (repeatCount n)) none (s1.setCell cT n acc1) with ⟨e2, acc2, s2⟩
      have hs2 := repeatLoop_state (env.run .aerB n) .aerB n 1
        (List.range (repeatCount n)) none (s1.setCell cT n acc1)
      rw [h2] at hs2
      obtain ⟨ht2, hg2⟩ := hs2
      simp only [HState.setCell, Table.setCell] at ht2 hg2
      dsimp only
      rw [h2]
      cases e2 with
      | some e =>
          exact ⟨by simp [ht2, ht1], by simp [ht2, ht1], by simp [hg2, hg1]⟩
      | none =>
          refine ⟨?_, ?_, ?_⟩ <;>
            simp [HState.setCell, Table.setCell, ht2, ht1, hg2, hg1]

theorem qiskitQubitLoop_state (env : Env) (cT cA : String) :
    ∀ (ns : List Nat) (s : HState),
    (qiskitQubitLoop env cT cA ns s).2.table.rows = s.table.rows
      ∧ (qiskitQubitLoop env cT cA ns s).2.table.cols = s.table.cols
      ∧ (qiskitQubitLoop env cT cA ns s).2.gcOn = s.gcOn := by
  intro ns
  induction ns with
  | nil => intro s; exact ⟨rfl, rfl, rfl⟩
  | cons n rest ih =>
      intro s
      rw [qiskitQubitLoop]
      rcases h1 : qiskitIter env cT cA n s with ⟨e1, s1⟩
      have hs1 := qiskitIter_state env cT cA n s
      rw [h1] at hs1
      cases e1 with
      | some e => exact hs1
      | none =>
          have := ih s1
          exact ⟨this.1.trans hs1.1, this.2.1.trans hs1.2.1, this.2.2.trans hs1.2.2⟩

theorem pyquilIter_state (env : Env) (cQ : String) (n : Nat) (s : HState) :
    (pyquilIter env cQ n s).2.table.rows = s.table.rows
      ∧ (pyquilIter env cQ n s).2.table.cols = s.table.cols
      ∧ (pyquilIter env cQ n s).2.gcOn = s.gcOn := by
  rw [pyquilIter]
  cases hq : env.getQc n with
  | error e => exact ⟨rfl, rfl, rfl⟩
  | ok u =>
      rcases h1 : repeatLoop (env.run .qvmB n) .qvmB n
          (wrap_in_numshots_loop (qft_pyquil n) 1).numshots
          (List.range (repeatCount n)) none
          ((s.emit (.buildCircuit .fPyquil n)).emit (.getQc n)) with ⟨e1, acc1, s1⟩
      have hs1 := repeatLoop_state (env.run .qvmB n) .qvmB n
        (wrap_in_numshots_loop (qft_pyquil n) 1).numshots
        (List.range (repeatCount n)) none
        ((s.emit (.buildCircuit .fPyquil n)).emit (.getQc n))
      rw [h1] at hs1
      obtain ⟨ht1, hg1⟩ := hs1
      simp only [HState.emit] at ht1 hg1
      cases e1 with
      | some e => exact ⟨by simp [ht1], by simp [ht1], by simp [hg1]⟩
      | none =>
          refine ⟨?_, ?_, ?_⟩ <;> simp [HState.setCell, Table.setCell, ht1, hg1]

theorem pyquilQubitLoop_state (env : Env) (cQ : String) :
    ∀ (ns : List Nat) (s : HState),
    (pyquilQubitLoop env cQ ns s).2.table.rows = s.table.rows
      ∧ (pyquilQubitLoop env cQ ns s).2.table.cols = s.table.cols
      ∧ (pyquilQubitLoop env cQ ns s).2.gcOn = s.gcOn := by
  intro ns
  induction ns with
  | nil => intro s; exact ⟨rfl, rfl, rfl⟩
  | cons n rest ih =>
      intro s
      rw [pyquilQubitLoop]
      rcases h1 : pyquilIter env cQ n s with ⟨e1, s1⟩
      have hs1 := pyquilIter_state env cQ n s
      rw [h1] at hs1
      cases e1 with
      | some e => exact hs1
      | none =>
          have := ih s1
          exact ⟨this.1.trans hs1.1, this.2.1.trans hs1.2.1, this.2.2.trans hs1.2.2⟩

theorem cirqIter_state (env : Env) (cC : String) (n : Nat) (s : HState) :
    (cirqIter env cC n s).2.table.rows = s.table.rows
      ∧ (cirqIter env cC n s).2.table.cols = s.table.cols
      ∧ (cirqIter env cC n s).2.gcOn = s.gcOn := by
  rw [cirqIter]
  rcases h1 : repeatLoop (env.run .cirqB n) .cirqB n 1
      (List.range (repeatCount n)) none (s.emit (.buildCircuit .fCirq n)) with ⟨e1, acc1, s1⟩
  have hs1 := repeatLoop_state (env.run .cirqB n) .cirqB n 1
    (List.range (repeatCount n)) none (s.emit (.buildCircuit .fCirq n))
  rw [h1] at hs1
  obtain ⟨ht1, hg1⟩ := hs1
  simp only [HState.emit] at ht1 hg1
  cases e1 with
  | some e => exact ⟨by simp [ht1], by simp [ht1], by simp [hg1]⟩
  | none =>
      refine ⟨?_, ?_, ?_⟩ <;> simp [HState.setCell, Table.setCell, ht1, hg1]

theorem cirqQubitLoop_state (env : Env) (cC : String) :
    ∀ (ns : List Nat) (s : HState),
    (cirqQubitLoop env cC ns s).2.table.rows = s.table.rows
      ∧ (cirqQubitLoop env cC ns s).2.table.cols = s.table.cols
      ∧ (cirqQubitLoop env cC ns s).2.gcOn = s.gcOn := by
  intro ns
  induction ns with
  | nil => intro s; exact ⟨rfl, rfl, rfl⟩
  | cons n rest ih =>
      intro s
      rw [cirqQubitLoop]
      rcases h1 : cirqIter env cC n s with ⟨e1, s1⟩
      have hs1 := cirqIter_state env cC n s
      rw [h1] at hs1
      cases e1 with
      | some e => exact hs1
      | none =>
          have := ih s1
          exact ⟨this.1.trans hs1.1, this.2.1.trans hs1.2.1, this.2.2.trans hs1.2.2⟩

theorem benchmark_qft_qiskit_state (env : Env) (f t : Nat) (s : HState) :
    (benchmark_qft_qiskit env f t s).2.table.rows = s.table.rows
      ∧ ((benchmark_qft_qiskit env f t s).1 = none →
          (benchmark_qft_qiskit env f t s).2.gcOn = true)
      ∧ (∀ e, (benchmark_qft_qiskit env f t s).1 = some e →
          (benchmark_qft_qiskit env f t s).2.gcOn = false) := by
  rw [benchmark_qft_qiskit]
  cases hv : env.toasterVersion with
  | error e => exact ⟨rfl, by simp, by simp [HState.gcDisable]⟩
  | ok tv =>
      cases ha : env.getAerBackend with
      | error e =>
          exact ⟨rfl, by simp, by simp [HState.addCol, HState.gcDisable]⟩
      | ok u1 =>
          cases hb : env.getToasterBackend with
          | error e =>
              exact ⟨rfl, by simp, by simp [HState.addCol, HState.gcDisable]⟩
          | ok u2 =>
              rcases hl : qiskitQubitLoop env (toasterLabel tv) (aerLabel env.aerVersion)
                  (rangeList f t)
                  ((s.gcDisable.addCol (toasterLabel tv)).addCol (aerLabel env.aerVersion))
                with ⟨e1, s1⟩
              have hs1 := qiskitQubitLoop_state env (toasterLabel tv) (aerLabel env.aerVersion)
                (rangeList f t)
                ((s.gcDisable.addCol (toasterLabel tv)).addCol (aerLabel env.aerVersion))
              rw [hl] at hs1
              dsimp only
              rw [hl]
              cases e1 with
              | some e =>
                  refine ⟨?_, by simp, ?_⟩
                  · simpa [HState.addCol, Table.addCol, HState.gcDisable] using hs1.1
                  · intro e' he'
                    simpa [HState.addCol, HState.gcDisable] using hs1.2.2
              | none =>
                  refine ⟨?_, ?_, by simp⟩
                  · simpa [HState.gcEnable, HState.addCol, Table.addCol,
                      HState.gcDisable] using hs1.1
                  · intro hnone
                    simp [HState.gcEnable]

theorem benchmark_qft_pyquil_state (env : Env) (f t : Nat) (s : HState) :
    (benchmark_qft_pyquil env f t s).2.table.rows = s.table.rows
      ∧ ((benchmark_qft_pyquil env f t s).1 = none →
          (benchmark_qft_pyquil env f t s).2.gcOn = true)
      ∧ (∀ e, (benchmark_qft_pyquil env f t s).1 = some e →
          (benchmark_qft_pyquil env f t s).2.gcOn = false) := by
  rw [benchmark_qft_pyquil]
  cases hv : env.qvmVersion with
  | error e => exact ⟨rfl, by simp, by simp [HState.gcDisable]⟩
  | ok qv =>
      rcases hl : pyquilQubitLoop env (qvmLabel qv) (rangeList f t)
          (s.gcDisable.addCol (qvmLabel qv)) with ⟨e1, s1⟩
      have hs1 := pyquilQubitLoop_state env (qvmLabel qv) (rangeList f t)
        (s.gcDisable.addCol (qvmLabel qv))
      rw [hl] at hs1
      dsimp only
      rw [hl]
      cases e1 with
      | some e =>
          refine ⟨?_, by simp, ?_⟩
          · simpa [HState.addCol, Table.addCol, HState.gcDisable] using hs1.1
          · intro e' he'
            simpa [HState.addCol, HState.gcDisable] using hs1.2.2
      | none =>
          refine ⟨?_, ?_, by simp⟩
          · simpa [HState.gcEnable, HState.addCol, Table.addCol, HState.gcDisable] using hs1.1
          · intro hnone
            simp [HState.gcEnable]

theorem benchmark_qft_cirq_state (env : Env) (f t : Nat) (s : HState) :
    (benchmark_qft_cirq env f t s).2.table.rows = s.table.rows
      ∧ ((benchmark_qft_cirq env f t s).1 = none →
          (benchmark_qft_cirq env f t s).2.gcOn = true)
      ∧ (∀ e, (benchmark_qft_cirq env f t s).1 = some e →
          (benchmark_qft_cirq env f t s).2.gcOn = false) := by
  rw [benchmark_qft_cirq]
  rcases hl : cirqQubitLoop env (cirqLabel env.cirqVersion) (rangeList f t)
      (s.gcDisable.addCol (cirqLabel env.cirqVersion)) with ⟨e1, s1⟩
  have hs1 := cirqQubitLoop_state env (cirqLabel env.cirqVersion) (rangeList f t)
    (s.gcDisable.addCol (cirqLabel env.cirqVersion))
  rw [hl] at hs1
  cases e1 with
  | some e =>
      refine ⟨?_, by simp, ?_⟩
      · simpa [HState.addCol, Table.addCol, HState.gcDisable] using hs1.1
      · intro e' he'
        simpa [HState.addCol, HState.gcDisable] using hs1.2.2
  | none =>
      refine ⟨?_, ?_, by simp⟩
      · simpa [HState.gcEnable, HState.addCol, Table.addCol, HState.gcDisable] using hs1.1
      · intro hnone
        simp [HState.gcEnable]

/-- The row index of the results table equals the requested qubit range on
every path, successful or aborted, of the whole harness invocation. -/
theorem benchmark_qft_rows (env : Env) (f t : Nat) :
    (benchmark_qft env f t).2.table.rows = rangeList f t := by
  rw [benchmark_qft]
  rcases h1 : benchmark_qft_qiskit env f t (initState f t) with ⟨e1, s1⟩
  have hs1 := benchmark_qft_qiskit_state env f t (initState f t)
  rw [h1] at hs1
  cases e1 with
  | some e => exact hs1.1
  | none =>
      rcases h2 : benchmark_qft_pyquil env f t s1 with ⟨e2, s2⟩
      have hs2 := benchmark_qft_pyquil_state env f t s1
      rw [h2] at hs2
      dsimp only
      rw [h2]
      cases e2 with
      | some e => exact hs2.1.trans hs1.1
      | none =>
          rcases h3 : benchmark_qft_cirq env f t s2 with ⟨e3, s3⟩
          have hs3 := benchmark_qft_cirq_state env f t s2
          rw [h3] at hs3
          dsimp only
          rw [h3]
          cases e3 with
          | some e => exact hs3.1.trans (hs2.1.trans hs1.1)
          | none =>
              simpa [HState.emit] using hs3.1.trans (hs2.1.trans hs1.1)

theorem repeatLoop_tame (sample : Nat → Except Err Time) (b : Backend) (n sh : Nat)
    (hb : b ≠ .qsimB) (hsh : sh = 1) :
    ∀ (rs : List Nat) (acc : Option Time) (s : HState),
    ∃ ext, (repeatLoop sample b n sh rs acc s).2.2.trace = s.trace ++ ext
      ∧ ∀ e ∈ ext, tame e = true := by
  intro rs
  induction rs with
  | nil =>
      intro acc s
      exact ⟨[], by simp [repeatLoop], by simp⟩
  | cons r rest ih =>
      intro acc s
      rw [repeatLoop]
      have htame : ∀ e ∈ [Event.gcCollect, Event.timerStart b n,
          Event.runCall b n sh, Event.timerStop b n], tame e = true := by
        intro e he
        simp only [List.mem_cons, List.mem_singleton] at he
        rcases he with rfl | rfl | rfl | rfl | h
        · rfl
        · simp [tame, hb]
        · simp [tame, hb, hsh]
        · simp [tame, hb]
        · simp at h
      cases hr : sample r with
      | error e =>
          refine ⟨[Event.gcCollect, Event.timerStart b n, Event.runCall b n sh], ?_, ?_⟩
          · simp [HState.emit]
          · intro e' he'
            exact htame e' (by simp at he' ⊢; tauto)
      | ok v =>
          obtain ⟨ext, hext, hall⟩ := ih
            (some (match acc with | none => v | some a => min a v))
            (((((s.emit .gcCollect).emit (.timerStart b n)).emit
                (.runCall b n sh))).emit (.timerStop b n))
          refine ⟨[Event.gcCollect, Event.timerStart b n, Event.runCall b n sh,
            Event.timerStop b n] ++ ext, ?_, ?_⟩
          · rw [hext]
            simp [HState.emit]
          · intro e' he'
            rcases List.mem_append.1 he' with h | h
            · exact htame e' h
            · exact hall e' h

theorem qiskitIter_tame (env : Env) (cT cA : String) (n : Nat) (s : HState) :
    ∃ ext, (qiskitIter env cT cA n s).2.trace = s.trace ++ ext
      ∧ ∀ e ∈ ext, tame e = true := by
  rw [qiskitIter]
  rcases h1 : repeatLoop (env.run .toasterB n) .toasterB n 1
      (List.range (repeatCount n)) none (s.emit (.buildCircuit .fQiskit n)) with ⟨e1, acc1, s1⟩
  obtain ⟨x1, hx1, ha1⟩ := repeatLoop_tame (env.run .toasterB n) .toasterB n 1
    (by simp) rfl (List.range (repeatCount n)) none (s.emit (.buildCircuit .fQiskit n))
  rw [h1] at hx1
  simp only [HState.emit] at hx1
  cases e1 with
  | some e =>
      refine ⟨Event.buildCircuit .fQiskit n :: x1, ?_, ?_⟩
      · simpa using hx1
      · intro e' he'
        rcases List.mem_cons.1 he' with rfl | h
        · rfl
        · exact ha1 e' h
  | none =>
      rcases h2 : repeatLoop (env.run .aerB n) .aerB n 1
          (List.range (repeatCount n)) none (s1.setCell cT n acc1) with ⟨e2, acc2, s2⟩
      obtain ⟨x2, hx2, ha2⟩ := repeatLoop_tame (env.run .aerB n) .aerB n 1
        (by simp) rfl (List.range (repeatCount n)) none (s1.setCell cT n acc1)
      rw [h2] at hx2
      simp only [HState.setCell] at hx2
      dsimp only
      rw [h2]
      cases e2 with
      | some e =>
          refine ⟨Event.buildCircuit .fQiskit n :: (x1 ++ (Event.cellSet cT n :: x2)), ?_, ?_⟩
          · rw [hx2, hx1]
            simp
          · intro e' he'
            rcases List.mem_cons.1 he' with rfl | h
            · rfl
            rcases List.mem_append.1 h with h' | h'
            · exact ha1 e' h'
            rcases List.mem_cons.1 h' with rfl | h''
            · rfl
            · exact ha2 e' h''
      | none =>
          refine ⟨Event.buildCircuit .fQiskit n ::
            (x1 ++ (Event.cellSet cT n :: (x2 ++ [Event.cellSet cA n]))), ?_, ?_⟩
          · simp only [HState.setCell]
            rw [hx2, hx1]
            simp
          · intro e' he'
            rcases List.mem_cons.1 he' with rfl | h
            · rfl
            rcases List.mem_append.1 h with h' | h'
            · exact ha1 e' h'
            rcases List.mem_cons.1 h' with rfl | h''
            · rfl
            rcases List.mem_append.1 h'' with h3 | h3
            · exact ha2 e' h3
            · rcases List.mem_singleton.1 h3 with rfl
              rfl

theorem pyquilIter_tame (env : Env) (cQ : String) (n : Nat) (s : HState) :
    ∃ ext, (pyquilIter env cQ n s).2.trace = s.trace ++ ext
      ∧ ∀ e ∈ ext, tame e = true := by
  rw [pyquilIter]
  cases hq : env.getQc n with
  | error e =>
      refine ⟨[Event.buildCircuit .fPyquil n], by simp [HState.emit], ?_⟩
      intro e' he'
      rcases List.mem_singleton.1 he' with rfl
      rfl
  | ok u =>
      rcases h1 : repeatLoop (env.run .qvmB n) .qvmB n
          (wrap_in_numshots_loop (qft_pyquil n) 1).numshots
          (List.range (repeatCount n)) none
          ((s.emit (.buildCircuit .fPyquil n)).emit (.getQc n)) with ⟨e1, acc1, s1⟩
      obtain ⟨x1, hx1, ha1⟩ := repeatLoop_tame (env.run .qvmB n) .qvmB n
        (wrap_in_numshots_loop (qft_pyquil n) 1).numshots (by simp) rfl
        (List.range (repeatCount n)) none
        ((s.emit (.buildCircuit .fPyquil n)).emit (.getQc n))
      rw [h1] at hx1
      simp only [HState.emit] at hx1
      cases e1 with
      | some e =>
          refine ⟨Event.buildCircuit .fPyquil n :: Event.getQc n :: x1, ?_, ?_⟩
          · simpa using hx1
          · intro e' he'
            rcases List.mem_cons.1 he' with rfl | h
            · rfl
            rcases List.mem_cons.1 h with rfl | h'
            · rfl
            · exact ha1 e' h'
      | none =>
          refine ⟨Event.buildCircuit .fPyquil n :: Event.getQc n ::
            (x1 ++ [Event.cellSet cQ n]), ?_, ?_⟩
          · simp only [HState.setCell]
            rw [hx1]
            simp
          · intro e' he'
            rcases List.mem_cons.1 he' with rfl | h
            · rfl
            rcases List.mem_cons.1 h with rfl | h'
            · rfl
            rcases List.mem_append.1 h' with h3 | h3
            · exact ha1 e' h3
            · rcases List.mem_singleton.1 h3 with rfl
              rfl

theorem cirqIter_tame (env : Env) (cC : String) (n : Nat) (s : HState) :
    ∃ ext, (cirqIter env cC n s).2.trace = s.trace ++ ext
      ∧ ∀ e ∈ ext, tame e = true := by
  rw [cirqIter]
  rcases h1 : repeatLoop (env.run .cirqB n) .cirqB n 1
      (List.range (repeatCount n)) none (s.emit (.buildCircuit .fCirq n)) with ⟨e1, acc1, s1⟩
  obtain ⟨x1, hx1, ha1⟩ := repeatLoop_tame (env.run .cirqB n) .cirqB n 1
    (by simp) rfl (List.range (repeatCount n)) none (s.emit (.buildCircuit .fCirq n))
  rw [h1] at hx1
  simp only [HState.emit] at hx1
  cases e1 with
  | some e =>
      refine ⟨Event.buildCircuit .fCirq n :: x1, ?_, ?_⟩
      · simpa using hx1
      · intro e' he'
        rcases List.mem_cons.1 he' with rfl | h
        · rfl
        · exact ha1 e' h
  | none =>
      refine ⟨Event.buildCircuit .fCirq n :: (x1 ++ [Event.cellSet cC n]), ?_, ?_⟩
      · simp only [HState.setCell]
        rw [hx1]
        simp
      · intro e' he'
        rcases List.mem_cons.1 he' with rfl | h
        · rfl
        rcases List.mem_append.1 h with h3 | h3
        · exact ha1 e' h3
        · rcases List.mem_singleton.1 h3 with rfl
          rfl

theorem qiskitQubitLoop_tame (env : Env) (cT cA : String) :
    ∀ (ns : List Nat) (s : HState),
    ∃ ext, (qiskitQubitLoop env cT cA ns s).2.trace = s.trace ++ ext
      ∧ ∀ e ∈ ext, tame e = true := by
  intro ns
  induction ns with
  | nil => intro s; exact ⟨[], by simp [qiskitQubitLoop], by simp⟩
  | cons n rest ih =>
      intro s
      rw [qiskitQubitLoop]
      rcases h1 : qiskitIter env cT cA n s with ⟨e1, s1⟩
      obtain ⟨x1, hx1, ha1⟩ := qiskitIter_tame env cT cA n s
      rw [h1] at hx1
      cases e1 with
      | some e => exact ⟨x1, hx1, ha1⟩
      | none =>
          obtain ⟨x2, hx2, ha2⟩ := ih s1
          refine ⟨x1 ++ x2, ?_, ?_⟩
          · rw [hx2, hx1, List.append_assoc]
          · intro e' he'
            rcases List.mem_append.1 he' with h | h
            · exact ha1 e' h
            · exact ha2 e' h

theorem pyquilQubitLoop_tame (env : Env) (cQ : String) :
    ∀ (ns : List Nat) (s : HState),
    ∃ ext, (pyquilQubitLoop env cQ ns s).2.trace = s.trace ++ ext
      ∧ ∀ e ∈ ext, tame e = true := by
  intro ns
  induction ns with
  | nil => intro s; exact ⟨[], by simp [pyquilQubitLoop], by simp⟩
  | cons n rest ih =>
      intro s
      rw [pyquilQubitLoop]
      rcases h1 : pyquilIter env cQ n s with ⟨e1, s1⟩
      obtain ⟨x1, hx1, ha1⟩ := pyquilIter_tame env cQ n s
      rw [h1] at hx1
      cases e1 with
      | some e => exact ⟨x1, hx1, ha1⟩
      | none =>
          obtain ⟨x2, hx2, ha2⟩ := ih s1
          refine ⟨x1 ++ x2, ?_, ?_⟩
          · rw [hx2, hx1, List.append_assoc]
          · intro e' he'
            rcases List.mem_append.1 he' with h | h
            · exact ha1 e' h
            · exact ha2 e' h

theorem cirqQubitLoop_tame (env : Env) (cC : String) :
    ∀ (ns : List Nat) (s : HState),
    ∃ ext, (cirqQubitLoop env cC ns s).2.trace = s.trace ++ ext
      ∧ ∀ e ∈ ext, tame e = true := by
  intro ns
  induction ns with
  | nil => intro s; exact ⟨[], by simp [cirqQubitLoop], by simp⟩
  | cons n rest ih =>
      intro s
      rw [cirqQubitLoop]
      rcases h1 : cirqIter env cC n s with ⟨e1, s1⟩
      obtain ⟨x1, hx1, ha1⟩ := cirqIter_tame env cC n s
      rw [h1] at hx1
      cases e1 with
      | some e => exact ⟨x1, hx1, ha1⟩
      | none =>
          obtain ⟨x2, hx2, ha2⟩ := ih s1
          refine ⟨x1 ++ x2, ?_, ?_⟩
          · rw [hx2, hx1, List.append_assoc]
          · intro e' he'
            rcases List.mem_append.1 he' with h | h
            · exact ha1 e' h
            · exact ha2 e' h

theorem benchmark_qft_qiskit_tame (env : Env) (f t : Nat) (s : HState) :
    ∃ ext, (benchmark_qft_qiskit env f t s).2.trace = s.trace ++ ext
      ∧ ∀ e ∈ ext, tame e = true := by
  rw [benchmark_qft_qiskit]
  cases hv : env.toasterVersion with
  | error e =>
      refine ⟨[Event.gcDisabled], by simp [HState.gcDisable], ?_⟩
      intro e' he'
      rcases List.mem_singleton.1 he' with rfl
      rfl
  | ok tv =>
      have hhead : ∀ e ∈ [Event.gcDisabled, Event.colAdded (toasterLabel tv),
          Event.colAdded (aerLabel env.aerVersion)], tame e = true := by
        intro e he
        simp only [List.mem_cons, List.mem_singleton] at he
        rcases he with rfl | rfl | rfl | h
        · rfl
        · simpa [tame, toasterLabel] using toaster_ne_qsim tv
        · simpa [tame, aerLabel] using aer_ne_qsim env.aerVersion
        · simp at h
      cases ha : env.getAerBackend with
      | error e =>
          refine ⟨[Event.gcDisabled, Event.colAdded (toasterLabel tv),
            Event.colAdded (aerLabel env.aerVersion)], ?_, hhead⟩
          simp [HState.gcDisable, HState.addCol]
      | ok u1 =>
          cases hb : env.getToasterBackend with
          | error e =>
              refine ⟨[Event.gcDisabled, Event.colAdded (toasterLabel tv),
                Event.colAdded (aerLabel env.aerVersion)], ?_, hhead⟩
              simp [HState.gcDisable, HState.addCol]
          | ok u2 =>
              rcases hl : qiskitQubitLoop env (toasterLabel tv) (aerLabel env.aerVersion)
                  (rangeList f t)
                  ((s.gcDisable.addCol (toasterLabel tv)).addCol (aerLabel env.aerVersion))
                with ⟨e1, s1⟩
              obtain ⟨x1, hx1, ha1⟩ := qiskitQubitLoop_tame env (toasterLabel tv)
                (aerLabel env.aerVersion) (rangeList f t)
                ((s.gcDisable.addCol (toasterLabel tv)).addCol (aerLabel env.aerVersion))
              rw [hl] at hx1
              simp only [HState.gcDisable, HState.addCol] at hx1
              dsimp only
              rw [hl]
              cases e1 with
              | some e =>
                  refine ⟨[Event.gcDisabled, Event.colAdded (toasterLabel tv),
                    Event.colAdded (aerLabel env.aerVersion)] ++ x1, ?_, ?_⟩
                  · rw [hx1]
                    simp
                  · intro e' he'
                    rcases List.mem_append.1 he' with h | h
                    · exact hhead e' h
                    · exact ha1 e' h
              | none =>
                  refine ⟨[Event.gcDisabled, Event.colAdded (toasterLabel tv),
                    Event.colAdded (aerLabel env.aerVersion)] ++ x1 ++ [Event.gcEnabled],
                    ?_, ?_⟩
                  · simp only [HState.gcEnable]
                    rw [hx1]
                    simp
                  · intro e' he'
                    rcases List.mem_append.1 he' with h | h
                    · rcases List.mem_append.1 h with h' | h'
                      · exact hhead e' h'
                      · exact ha1 e' h'
                    · rcases List.mem_singleton.1 h with rfl
                      rfl

theorem benchmark_qft_pyquil_tame (env : Env) (f t : Nat) (s : HState) :
    ∃ ext, (benchmark_qft_pyquil env f t s).2.trace = s.trace ++ ext
      ∧ ∀ e ∈ ext, tame e = true := by
  rw [benchmark_qft_pyquil]
  cases hv : env.qvmVersion with
  | error e =>
      refine ⟨[Event.gcDisabled], by simp [HState.gcDisable], ?_⟩
      intro e' he'
      rcases List.mem_singleton.1 he' with rfl
      rfl
  | ok qv =>
      have hhead : ∀ e ∈ [Event.gcDisabled, Event.colAdded (qvmLabel qv)], tame e = true := by
        intro e he
        simp only [List.mem_cons, List.mem_singleton] at he
        rcases he with rfl | rfl | h
        · rfl
        · simpa [tame, qvmLabel] using qvm_ne_qsim qv
        · simp at h
      rcases hl : pyquilQubitLoop env (qvmLabel qv) (rangeList f t)
          (s.gcDisable.addCol (qvmLabel qv)) with ⟨e1, s1⟩
      obtain ⟨x1, hx1, ha1⟩ := pyquilQubitLoop_tame env (qvmLabel qv) (rangeList f t)
        (s.gcDisable.addCol (qvmLabel qv))
      rw [hl] at hx1
      simp only [HState.gcDisable, HState.addCol] at hx1
      dsimp only
      rw [hl]
      cases e1 with
      | some e =>
          refine ⟨[Event.gcDisabled, Event.colAdded (qvmLabel qv)] ++ x1, ?_, ?_⟩
          · rw [hx1]
            simp
          · intro e' he'
            rcases List.mem_append.1 he' with h | h
            · exact hhead e' h
            · exact ha1 e' h
      | none =>
          refine ⟨[Event.gcDisabled, Event.colAdded (qvmLabel qv)] ++ x1
            ++ [Event.gcEnabled], ?_, ?_⟩
          · simp only [HState.gcEnable]
            rw [hx1]
            simp
          · intro e' he'
            rcases List.mem_append.1 he' with h | h
            · rcases List.mem_append.1 h with h' | h'
              · exact hhead e' h'
              · exact ha1 e' h'
            · rcases List.mem_singleton.1 h with rfl
              rfl

theorem benchmark_qft_cirq_tame (env : Env) (f t : Nat) (s : HState) :
    ∃ ext, (benchmark_qft_cirq env f t s).2.trace = s.trace ++ ext
      ∧ ∀ e ∈ ext, tame e = true := by
  rw [benchmark_qft_cirq]
  have hhead : ∀ e ∈ [Event.gcDisabled, Event.colAdded (cirqLabel env.cirqVersion)],
      tame e = true := by
    intro e he
    simp only [List.mem_cons, List.mem_singleton] at he
    rcases he with rfl | rfl | h
    · rfl
    · simpa [tame, cirqLabel] using cirq_ne_qsim env.cirqVersion
    · simp at h
  rcases hl : cirqQubitLoop env (cirqLabel env.cirqVersion) (rangeList f t)
      (s.gcDisable.addCol (cirqLabel env.cirqVersion)) with ⟨e1, s1⟩
  obtain ⟨x1, hx1, ha1⟩ := cirqQubitLoop_tame env (cirqLabel env.cirqVersion) (rangeList f t)
    (s.gcDisable.addCol (cirqLabel env.cirqVersion))
  rw [hl] at hx1
  simp only [HState.gcDisable, HState.addCol] at hx1
  cases e1 with
  | some e =>
      refine ⟨[Event.gcDisabled, Event.colAdded (cirqLabel env.cirqVersion)] ++ x1, ?_, ?_⟩
      · rw [hx1]
        simp
      · intro e' he'
        rcases List.mem_append.1 he' with h | h
        · exact hhead e' h
        · exact ha1 e' h
  | none =>
      refine ⟨[Event.gcDisabled, Event.colAdded (cirqLabel env.cirqVersion)] ++ x1
        ++ [Event.gcEnabled], ?_, ?_⟩
      · simp only [HState.gcEnable]
        rw [hx1]
        simp
      · intro e' he'
        rcases List.mem_append.1 he' with h | h
        · rcases List.mem_append.1 h with h' | h'
          · exact hhead e' h'
          · exact ha1 e' h'
        · rcases List.mem_singleton.1 h with rfl
          rfl

/-- Every harness trace is a block of tame pass events, followed by the plot
event exactly when the run succeeded. -/
theorem benchmark_qft_tame (env : Env) (f t : Nat) :
    ∃ ext, (∀ e ∈ ext, tame e = true)
      ∧ (((benchmark_qft env f t).1 = none
            ∧ (benchmark_qft env f t).2.trace = ext ++ [Event.plotSaved])
         ∨ ((benchmark_qft env f t).1 ≠ none
            ∧ (benchmark_qft env f t).2.trace = ext)) := by
  rw [benchmark_qft]
  rcases h1 : benchmark_qft_qiskit env f t (initState f t) with ⟨e1, s1⟩
  obtain ⟨x1, hx1, ha1⟩ := benchmark_qft_qiskit_tame env f t (initState f t)
  rw [h1] at hx1
  simp only [initState] at hx1
  cases e1 with
  | some e => exact ⟨x1, ha1, Or.inr ⟨by simp, by simpa using hx1⟩⟩
  | none =>
      rcases h2 : benchmark_qft_pyquil env f t s1 with ⟨e2, s2⟩
      obtain ⟨x2, hx2, ha2⟩ := benchmark_qft_pyquil_tame env f t s1
      rw [h2] at hx2
      dsimp only
      rw [h2]
      cases e2 with
      | some e =>
          refine ⟨x1 ++ x2, ?_, Or.inr ⟨by simp, ?_⟩⟩
          · intro e' he'
            rcases List.mem_append.1 he' with h | h
            · exact ha1 e' h
            · exact ha2 e' h
          · rw [hx2, hx1]
            simp
      | none =>
          rcases h3 : benchmark_qft_cirq env f t s2 with ⟨e3, s3⟩
          obtain ⟨x3, hx3, ha3⟩ := benchmark_qft_cirq_tame env f t s2
          rw [h3] at hx3
          dsimp only
          rw [h3]
          cases e3 with
          | some e =>
              refine ⟨x1 ++ x2 ++ x3, ?_, Or.inr ⟨by simp, ?_⟩⟩
              · intro e' he'
                rcases List.mem_append.1 he' with h | h
                · rcases List.mem_append.1 h with h' | h'
                  · exact ha1 e' h'
                  · exact ha2 e' h'
                · exact ha3 e' h
              · rw [hx3, hx2, hx1]
                simp
          | none =>
              refine ⟨x1 ++ x2 ++ x3, ?_, Or.inl ⟨rfl, ?_⟩⟩
              · intro e' he'
                rcases List.mem_append.1 he' with h | h
                · rcases List.mem_append.1 h with h' | h'
                  · exact ha1 e' h'
                  · exact ha2 e' h'
                · exact ha3 e' h
              · simp only [HState.emit]
                rw [hx3, hx2, hx1]
                simp

theorem findCell_append_of_ne (A B : List ((String × Nat) × Option Time)) (l : String) (n : Nat)
    (h : ∀ e ∈ A, e.1 ≠ (l, n)) :
    findCell (A ++ B) l n = findCell B l n := by
  induction A with
  | nil => rfl
  | cons a rest ih =>
      rw [List.cons_append, findCell]
      rw [if_neg (h a (List.mem_cons_self a rest))]
      exact ih fun e he => h e (List.mem_cons_of_mem a he)

theorem findCell_append_of_found (A B : List ((String × Nat) × Option Time)) (l : String)
    (n : Nat) (v : Option Time) (h : findCell A l n = some v) :
    findCell (A ++ B) l n = some v := by
  induction A with
  | nil => simp [findCell] at h
  | cons a rest ih =>
      rw [List.cons_append, findCell]
      rw [findCell] at h
      by_cases ha : a.1 = (l, n)
      · rw [if_pos ha] at h ⊢
        exact h
      · rw [if_neg ha] at h ⊢
        exact ih h

theorem mem_qiskitCells_key (runT : Backend → Nat → Nat → Time) (cT cA : String) :
    ∀ (ns : List Nat) (e : (String × Nat) × Option Time),
    e ∈ qiskitCells runT cT cA ns → e.1.2 ∈ ns := by
  intro ns
  induction ns with
  | nil => intro e he; simp [qiskitCells] at he
  | cons n rest ih =>
      intro e he
      rw [qiskitCells] at he
      rcases List.mem_append.1 he with h | h
      · exact List.mem_cons_of_mem n (ih e h)
      · rcases List.mem_cons.1 h with rfl | h'
        · exact List.mem_cons_self n rest
        · rcases List.mem_singleton.1 h' with rfl
          exact List.mem_cons_self n rest

theorem mem_pyquilCells_key (runT : Backend → Nat → Nat → Time) (cQ : String) :
    ∀ (ns : List Nat) (e : (String × Nat) × Option Time),
    e ∈ pyquilCells runT cQ ns → e.1.2 ∈ ns := by
  intro ns
  induction ns with
  | nil => intro e he; simp [pyquilCells] at he
  | cons n rest ih =>
      intro e he
      rw [pyquilCells] at he
      rcases List.mem_append.1 he with h | h
      · exact List.mem_cons_of_mem n (ih e h)
      · rcases List.mem_singleton.1 h with rfl
        exact List.mem_cons_self n rest

theorem mem_cirqCells_key (runT : Backend → Nat → Nat → Time) (cC : String) :
    ∀ (ns : List Nat) (e : (String × Nat) × Option Time),
    e ∈ cirqCells runT cC ns → e.1.2 ∈ ns := by
  intro ns
  induction ns with
  | nil => intro e he; simp [cirqCells] at he
  | cons n rest ih =>
      intro e he
      rw [cirqCells] at he
      rcases List.mem_append.1 he with h | h
      · exact List.mem_cons_of_mem n (ih e h)
      · rcases List.mem_singleton.1 h with rfl
        exact List.mem_cons_self n rest

theorem findCell_qiskitCells_toaster (runT : Backend → Nat → Nat → Time) (cT cA : String)
    (hne : cA ≠ cT) :
    ∀ (ns : List Nat) (n : Nat), ns.Nodup → n ∈ ns →
    findCell (qiskitCells runT cT cA ns) cT n = some (bestSamples runT .toasterB n) := by
  intro ns
  induction ns with
  | nil => intro n _ hmem; simp at hmem
  | cons m rest ih =>
      intro n hnd hmem
      rw [qiskitCells]
      rcases List.mem_cons.1 hmem with rfl | hmem'
      · have hskip : ∀ e ∈ qiskitCells runT cT cA rest, e.1 ≠ (cT, n) := by
          intro e he hk
          have := mem_qiskitCells_key runT cT cA rest e he
          rw [hk] at this
          exact (List.nodup_cons.1 hnd).1 this
        rw [findCell_append_of_ne _ _ _ _ hskip]
        rw [findCell]
        rw [if_neg (by simp; intro hca; exact absurd hca hne)]
        rw [findCell]
        rw [if_pos rfl]
      · have hv := ih n (List.nodup_cons.1 hnd).2 hmem'
        exact findCell_append_of_found _ _ _ _ _ hv

theorem findCell_qiskitCells_aer (runT : Backend → Nat → Nat → Time) (cT cA : String)
    (hne : cA ≠ cT) :
    ∀ (ns : List Nat) (n : Nat), ns.Nodup → n ∈ ns →
    findCell (qiskitCells runT cT cA ns) cA n = some (bestSamples runT .aerB n) := by
  intro ns
  induction ns with
  | nil => intro n _ hmem; simp at hmem
  | cons m rest ih =>
      intro n hnd hmem
      rw [qiskitCells]
      rcases List.mem_cons.1 hmem with rfl | hmem'
      · have hskip : ∀ e ∈ qiskitCells runT cT cA rest, e.1 ≠ (cA, n) := by
          intro e he hk
          have := mem_qiskitCells_key runT cT cA rest e he
          rw [hk] at this
          exact (List.nodup_cons.1 hnd).1 this
        rw [findCell_append_of_ne _ _ _ _ hskip]
        rw [findCell]
        rw [if_pos rfl]
      · have hv := ih n (List.nodup_cons.1 hnd).2 hmem'
        exact findCell_append_of_found _ _ _ _ _ hv

theorem findCell_pyquilCells (runT : Backend → Nat → Nat → Time) (cQ : String) :
    ∀ (ns : List Nat) (n : Nat), ns.Nodup → n ∈ ns →
    findCell (pyquilCells runT cQ ns) cQ n = some (bestSamples runT .qvmB n) := by
  intro ns
  induction ns with
  | nil => intro n _ hmem; simp at hmem
  | cons m rest ih =>
      intro n hnd hmem
      rw [pyquilCells]
      rcases List.mem_cons.1 hmem with rfl | hmem'
      · have hskip : ∀ e ∈ pyquilCells runT cQ rest, e.1 ≠ (cQ, n) := by
          intro e he hk
          have := mem_pyquilCells_key runT cQ rest e he
          rw [hk] at this
          exact (List.nodup_cons.1 hnd).1 this
        rw [findCell_append_of_ne _ _ _ _ hskip]
        rw [findCell]
        rw [if_pos rfl]
      · have hv := ih n (List.nodup_cons.1 hnd).2 hmem'
        exact findCell_append_of_found _ _ _ _ _ hv

theorem findCell_cirqCells (runT : Backend → Nat → Nat → Time) (cC : String) :
    ∀ (ns : List Nat) (n : Nat), ns.Nodup → n ∈ ns →
    findCell (cirqCells runT cC ns) cC n = some (bestSamples runT .cirqB n) := by
  intro ns
  induction ns with
  | nil => intro n _ hmem; simp at hmem
  | cons m rest ih =>
      intro n hnd hmem
      rw [cirqCells]
      rcases List.mem_cons.1 hmem with rfl | hmem'
      · have hskip : ∀ e ∈ cirqCells runT cC rest, e.1 ≠ (cC, n) := by
          intro e he hk
          have := mem_cirqCells_key runT cC rest e he
          rw [hk] at this
          exact (List.nodup_cons.1 hnd).1 this
        rw [findCell_append_of_ne _ _ _ _ hskip]
        rw [findCell]
        rw [if_pos rfl]
      · have hv := ih n (List.nodup_cons.1 hnd).2 hmem'
        exact findCell_append_of_found _ _ _ _ _ hv

theorem rangeList_nodup (f t : Nat) : (rangeList f t).Nodup :=
  List.nodup_range' f (t + 1 - f) 1 (by omega)

theorem mem_rangeList (f t n : Nat) : n ∈ rangeList f t ↔ f ≤ n ∧ n ≤ t := by
  rw [rangeList]
  constructor
  · intro h
    have := List.mem_range'_1.1 h
    omega
  · intro h
    exact List.mem_range'_1.2 (by omega)

/-- The cell of each non-qsim backend in the final table of a fully
successful run. -/
theorem fullCells_cell (te : TEnv) (f t n : Nat) (hn : n ∈ rangeList f t) :
    findCell (fullCells te f t) (toasterLabel te.toasterV) n
        = some (bestSamples te.runT .toasterB n)
      ∧ findCell (fullCells te f t) (aerLabel te.aerV) n
        = some (bestSamples te.runT .aerB n)
      ∧ findCell (fullCells te f t) (qvmLabel te.qvmV) n
        = some (bestSamples te.runT .qvmB n)
      ∧ findCell (fullCells te f t) (cirqLabel te.cirqV) n
        = some (bestSamples te.runT .cirqB n) := by
  have hnd := rangeList_nodup f t
  have hCskip : ∀ (l : String), l ≠ cirqLabel te.cirqV →
      ∀ e ∈ cirqCells te.runT (cirqLabel te.cirqV) (rangeList f t), e.1 ≠ (l, n) := by
    intro l hl e he hk
    have h2 := mem_cirqCells te.runT (cirqLabel te.cirqV) (rangeList f t) e he
    rw [hk] at h2
    simp only [Prod.fst] at h2
    exact hl h2
  have hQskip : ∀ (l : String), l ≠ qvmLabel te.qvmV →
      ∀ e ∈ pyquilCells te.runT (qvmLabel te.qvmV) (rangeList f t), e.1 ≠ (l, n) := by
    intro l hl e he hk
    have h2 := mem_pyquilCells te.runT (qvmLabel te.qvmV) (rangeList f t) e he
    rw [hk] at h2
    simp only [Prod.fst] at h2
    exact hl h2
  refine ⟨?_, ?_, ?_, ?_⟩
  · rw [fullCells, List.append_assoc,
      findCell_append_of_ne _ _ _ _ (hCskip _ fun hc => cirq_ne_toaster _ _ hc.symm),
      findCell_append_of_ne _ _ _ _ (hQskip _ fun hc => qvm_ne_toaster _ _ hc.symm)]
    exact findCell_qiskitCells_toaster te.runT _ _ (aer_ne_toaster _ _) _ n hnd hn
  · rw [fullCells, List.append_assoc,
      findCell_append_of_ne _ _ _ _ (hCskip _ fun hc => cirq_ne_aer _ _ hc.symm),
      findCell_append_of_ne _ _ _ _ (hQskip _ fun hc => qvm_ne_aer _ _ hc.symm)]
    exact findCell_qiskitCells_aer te.runT _ _ (aer_ne_toaster _ _) _ n hnd hn
  · rw [fullCells, List.append_assoc,
      findCell_append_of_ne _ _ _ _ (hCskip _ fun hc => cirq_ne_qvm _ _ hc.symm)]
    exact findCell_append_of_found _ _ _ _ _
      (findCell_pyquilCells te.runT _ _ n hnd hn)
  · rw [fullCells]
    have h1 : findCell (cirqCells te.runT (cirqLabel te.cirqV) (rangeList f t))
        (cirqLabel te.cirqV) n = some (bestSamples te.runT .cirqB n) :=
      findCell_cirqCells te.runT _ _ n hnd hn
    rw [List.append_assoc]
    exact findCell_append_of_found _ _ _ _ _ h1

theorem mem_repeatTrace (b : Backend) (n sh rep : Nat) (e : Event)
    (he : e ∈ repeatTrace b n sh rep) :
    e = .gcCollect ∨ e = .timerStart b n ∨ e = .runCall b n sh ∨ e = .timerStop b n := by
  rw [repeatTrace] at he
  rcases List.mem_flatMap.1 he with ⟨r, _, hr⟩
  simp only [sampleBlock, List.mem_cons, List.mem_singleton] at hr
  tauto

theorem mem_qiskitIterTrace (cT cA : String) (m : Nat) (e : Event)
    (he : e ∈ qiskitIterTrace cT cA m) :
    e = .buildCircuit .fQiskit m ∨ e = .cellSet cT m ∨ e = .cellSet cA m ∨ e = .gcCollect
      ∨ (∃ b, (b = .toasterB ∨ b = .aerB) ∧
          (e = .timerStart b m ∨ e = .runCall b m 1 ∨ e = .timerStop b m)) := by
  rw [qiskitIterTrace] at he
  rcases List.mem_cons.1 he with rfl | h
  · tauto
  rcases List.mem_append.1 h with h1 | h1
  · rcases List.mem_append.1 h1 with h2 | h2
    · rcases List.mem_append.1 h2 with h3 | h3
      · rcases mem_repeatTrace _ _ _ _ _ h3 with h4 | h4 | h4 | h4 <;>
          subst h4 <;> [tauto; exact Or.inr (Or.inr (Or.inr (Or.inr ⟨.toasterB, Or.inl rfl, by tauto⟩)));
            exact Or.inr (Or.inr (Or.inr (Or.inr ⟨.toasterB, Or.inl rfl, by tauto⟩)));
            exact Or.inr (Or.inr (Or.inr (Or.inr ⟨.toasterB, Or.inl rfl, by tauto⟩)))]
      · rcases List.mem_singleton.1 h3 with rfl
        tauto
    · rcases mem_repeatTrace _ _ _ _ _ h2 with h4 | h4 | h4 | h4 <;>
        subst h4 <;> [tauto; exact Or.inr (Or.inr (Or.inr (Or.inr ⟨.aerB, Or.inr rfl, by tauto⟩)));
          exact Or.inr (Or.inr (Or.inr (Or.inr ⟨.aerB, Or.inr rfl, by tauto⟩)));
          exact Or.inr (Or.inr (Or.inr (Or.inr ⟨.aerB, Or.inr rfl, by tauto⟩)))]
  · rcases List.mem_singleton.1 h1 with rfl
    tauto

theorem mem_pyquilIterTrace (cQ : String) (m : Nat) (e : Event)
    (he : e ∈ pyquilIterTrace cQ m) :
    e = .buildCircuit .fPyquil m ∨ e = .getQc m ∨ e = .cellSet cQ m ∨ e = .gcCollect
      ∨ e = .timerStart .qvmB m ∨ e = .runCall .qvmB m 1 ∨ e = .timerStop .qvmB m := by
  rw [pyquilIterTrace] at he
  rcases List.mem_cons.1 he with rfl | h
  · tauto
  rcases List.mem_cons.1 h with rfl | h1
  · tauto
  rcases List.mem_append.1 h1 with h2 | h2
  · rcases mem_repeatTrace _ _ _ _ _ h2 with h4 | h4 | h4 | h4 <;> tauto
  · rcases List.mem_singleton.1 h2 with rfl
    tauto

theorem mem_cirqIterTrace (cC : String) (m : Nat) (e : Event)
    (he : e ∈ cirqIterTrace cC m) :
    e = .buildCircuit .fCirq m ∨ e = .cellSet cC m ∨ e = .gcCollect
      ∨ e = .timerStart .cirqB m ∨ e = .runCall .cirqB m 1 ∨ e = .timerStop .cirqB m := by
  rw [cirqIterTrace] at he
  rcases List.mem_cons.1 he with rfl | h
  · tauto
  rcases List.mem_append.1 h with h2 | h2
  · rcases mem_repeatTrace _ _ _ _ _ h2 with h4 | h4 | h4 | h4 <;> tauto
  · rcases List.mem_singleton.1 h2 with rfl
    tauto

theorem mem_qiskitPassTrace (cT cA : String) (f t : Nat) (e : Event)
    (he : e ∈ qiskitPassTrace cT cA f t) :
    e = .gcDisabled ∨ e = .colAdded cT ∨ e = .colAdded cA ∨ e = .gcEnabled
      ∨ ∃ m, m ∈ rangeList f t ∧ e ∈ qiskitIterTrace cT cA m := by
  rw [qiskitPassTrace] at he
  rcases List.mem_cons.1 he with rfl | h
  · tauto
  rcases List.mem_cons.1 h with rfl | h1
  · tauto
  rcases List.mem_cons.1 h1 with rfl | h2
  · tauto
  rcases List.mem_append.1 h2 with h3 | h3
  · rcases List.mem_flatMap.1 h3 with ⟨m, hm, hme⟩
    exact Or.inr (Or.inr (Or.inr (Or.inr ⟨m, hm, hme⟩)))
  · rcases List.mem_singleton.1 h3 with rfl
    tauto

theorem mem_pyquilPassTrace (cQ : String) (f t : Nat) (e : Event)
    (he : e ∈ pyquilPassTrace cQ f t) :
    e = .gcDisabled ∨ e = .colAdded cQ ∨ e = .gcEnabled
      ∨ ∃ m, m ∈ rangeList f t ∧ e ∈ pyquilIterTrace cQ m := by
  rw [pyquilPassTrace] at he
  rcases List.mem_cons.1 he with rfl | h
  · tauto
  rcases List.mem_cons.1 h with rfl | h1
  · tauto
  rcases List.mem_append.1 h1 with h3 | h3
  · rcases List.mem_flatMap.1 h3 with ⟨m, hm, hme⟩
    exact Or.inr (Or.inr (Or.inr ⟨m, hm, hme⟩))
  · rcases List.mem_singleton.1 h3 with rfl
    tauto

theorem mem_cirqPassTrace (cC : String) (f t : Nat) (e : Event)
    (he : e ∈ cirqPassTrace cC f t) :
    e = .gcDisabled ∨ e = .colAdded cC ∨ e = .gcEnabled
      ∨ ∃ m, m ∈ rangeList f t ∧ e ∈ cirqIterTrace cC m := by
  rw [cirqPassTrace] at he
  rcases List.mem_cons.1 he with rfl | h
  · tauto
  rcases List.mem_cons.1 h with rfl | h1
  · tauto
  rcases List.mem_append.1 h1 with h3 | h3
  · rcases List.mem_flatMap.1 h3 with ⟨m, hm, hme⟩
    exact Or.inr (Or.inr (Or.inr ⟨m, hm, hme⟩))
  · rcases List.mem_singleton.1 h3 with rfl
    tauto

theorem repeatTrace_succ (b : Backend) (n sh r : Nat) :
    repeatTrace b n sh (r + 1) = repeatTrace b n sh r ++ sampleBlock b n sh := by
  rw [repeatTrace, repeatTrace,
    show List.range (r + 1) = List.range r ++ [r] by simpa using List.range_succ (n := r)]
  simp

theorem count_timerStart_sampleBlock (b' : Backend) (n' sh : Nat) (b : Backend) (n : Nat) :
    (sampleBlock b' n' sh).count (Event.timerStart b n)
      = if b' = b ∧ n' = n then 1 else 0 := by
  by_cases h : b' = b ∧ n' = n
  · obtain ⟨rfl, rfl⟩ := h
    simp [sampleBlock, List.count_cons]
  · rw [if_neg h]
    rw [List.count_eq_zero]
    intro hc
    simp only [sampleBlock, List.mem_cons, List.mem_singleton] at hc
    rcases hc with h1 | h1 | h1 | h1 | h1 <;> first
      | (rw [Event.timerStart.injEq] at h1; exact h ⟨h1.1.symm, h1.2.symm⟩)
      | exact absurd h1 (by simp)

theorem count_timerStart_repeatTrace (b' : Backend) (n' sh rep : Nat) (b : Backend) (n : Nat) :
    (repeatTrace b' n' sh rep).count (Event.timerStart b n)
      = if b' = b ∧ n' = n then rep else 0 := by
  induction rep with
  | zero => simp [repeatTrace]
  | succ r ih =>
      rw [repeatTrace_succ, List.count_append, ih, count_timerStart_sampleBlock]
      split_ifs <;> omega

theorem count_flatMap_zero (g : Nat → List Event) (e : Event) :
    ∀ ns : List Nat, (∀ m ∈ ns, (g m).count e = 0) → (ns.flatMap g).count e = 0 := by
  intro ns
  induction ns with
  | nil => intro _; rfl
  | cons m rest ih =>
      intro h
      rw [List.flatMap_cons, List.count_append, h m (List.mem_cons_self m rest),
        ih fun m' hm' => h m' (List.mem_cons_of_mem m hm')]

theorem count_flatMap_single (g : Nat → List Event) (e : Event) (c : Nat) (n : Nat) :
    ∀ ns : List Nat, ns.Nodup → n ∈ ns →
    (∀ m ∈ ns, (g m).count e = if m = n then c else 0) →
    (ns.flatMap g).count e = c := by
  intro ns
  induction ns with
  | nil => intro _ hmem; simp at hmem
  | cons m rest ih =>
      intro hnd hmem h
      rw [List.flatMap_cons, List.count_append]
      rcases List.mem_cons.1 hmem with heq | hmem'
      · subst heq
        rw [h n (List.mem_cons_self n rest), if_pos rfl]
        rw [count_flatMap_zero g e rest]
        · omega
        · intro m' hm'
          rw [h m' (List.mem_cons_of_mem n hm')]
          rw [if_neg]
          intro hc
          subst hc
          exact (List.nodup_cons.1 hnd).1 hm'
      · have hm0 : (g m).count e = 0 := by
          rw [h m (List.mem_cons_self m rest), if_neg]
          intro hc
          subst hc
          exact (List.nodup_cons.1 hnd).1 hmem'
        rw [hm0, ih (List.nodup_cons.1 hnd).2 hmem'
          fun m' hm' => h m' (List.mem_cons_of_mem m hm')]
        omega

theorem count_timerStart_qiskitIterTrace (cT cA : String) (m : Nat) (b : Backend) (n : Nat) :
    (qiskitIterTrace cT cA m).count (Event.timerStart b n)
      = if (b = .toasterB ∨ b = .aerB) ∧ m = n then repeatCount m else 0 := by
  rw [qiskitIterTrace]
  rw [List.count_cons]
  rw [List.count_append, List.count_append, List.count_append]
  rw [count_timerStart_repeatTrace, count_timerStart_repeatTrace]
  have h1 : ([Event.cellSet cT m]).count (Event.timerStart b n) = 0 := by
    rw [List.count_eq_zero]
    simp
  have h2 : ([Event.cellSet cA m]).count (Event.timerStart b n) = 0 := by
    rw [List.count_eq_zero]
    simp
  rw [h1, h2]
  cases b <;> simp <;> split_ifs <;> simp_all <;> omega

theorem count_timerStart_pyquilIterTrace (cQ : String) (m : Nat) (b : Backend) (n : Nat) :
    (pyquilIterTrace cQ m).count (Event.timerStart b n)
      = if b = .qvmB ∧ m = n then repeatCount m else 0 := by
  rw [pyquilIterTrace]
  rw [List.count_cons, List.count_cons, List.count_append]
  rw [count_timerStart_repeatTrace]
  have h1 : ([Event.cellSet cQ m]).count (Event.timerStart b n) = 0 := by
    rw [List.count_eq_zero]
    simp
  rw [h1]
  cases b <;> simp <;> split_ifs <;> simp_all <;> omega

theorem count_timerStart_cirqIterTrace (cC : String) (m : Nat) (b : Backend) (n : Nat) :
    (cirqIterTrace cC m).count (Event.timerStart b n)
      = if b = .cirqB ∧ m = n then repeatCount m else 0 := by
  rw [cirqIterTrace]
  rw [List.count_cons, List.count_append]
  rw [count_timerStart_repeatTrace]
  have h1 : ([Event.cellSet cC m]).count (Event.timerStart b n) = 0 := by
    rw [List.count_eq_zero]
    simp
  rw [h1]
  cases b <;> simp <;> split_ifs <;> simp_all <;> omega

theorem count_timerStart_qiskitPassTrace (cT cA : String) (f t : Nat) (b : Backend) (n : Nat)
    (hn : n ∈ rangeList f t) :
    (qiskitPassTrace cT cA f t).count (Event.timerStart b n)
      = if b = .toasterB ∨ b = .aerB then repeatCount n else 0 := by
  rw [qiskitPassTrace]
  rw [List.count_cons, List.count_cons, List.count_cons, List.count_append]
  have hlast : ([Event.gcEnabled]).count (Event.timerStart b n) = 0 := by
    rw [List.count_eq_zero]
    simp
  rw [hlast]
  by_cases hb : b = .toasterB ∨ b = .aerB
  · rw [if_pos hb]
    rw [count_flatMap_single (qiskitIterTrace cT cA) (Event.timerStart b n) (repeatCount n) n
      (rangeList f t) (rangeList_nodup f t) hn]
    · simp
    · intro m hm
      rw [count_timerStart_qiskitIterTrace]
      by_cases hmn : m = n
      · subst hmn
        rw [if_pos ⟨hb, rfl⟩, if_pos rfl]
      · rw [if_neg (by tauto), if_neg hmn]
  · rw [if_neg hb]
    rw [count_flatMap_zero]
    · simp
    · intro m hm
      rw [count_timerStart_qiskitIterTrace]
      rw [if_neg (by tauto)]

theorem count_timerStart_pyquilPassTrace (cQ : String) (f t : Nat) (b : Backend) (n : Nat)
    (hn : n ∈ rangeList f t) :
    (pyquilPassTrace cQ f t).count (Event.timerStart b n)
      = if b = .qvmB then repeatCount n else 0 := by
  rw [pyquilPassTrace]
  rw [List.count_cons, List.count_cons, List.count_append]
  have hlast : ([Event.gcEnabled]).count (Event.timerStart b n) = 0 := by
    rw [List.count_eq_zero]
    simp
  rw [hlast]
  by_cases hb : b = .qvmB
  · rw [if_pos hb]
    rw [count_flatMap_single (pyquilIterTrace cQ) (Event.timerStart b n) (repeatCount n) n
      (rangeList f t) (rangeList_nodup f t) hn]
    · simp
    · intro m hm
      rw [count_timerStart_pyquilIterTrace]
      by_cases hmn : m = n
      · subst hmn
        rw [if_pos ⟨hb, rfl⟩, if_pos rfl]
      · rw [if_neg (by tauto), if_neg hmn]
  · rw [if_neg hb]
    rw [count_flatMap_zero]
    · simp
    · intro m hm
      rw [count_timerStart_pyquilIterTrace]
      rw [if_neg (by tauto)]

theorem count_timerStart_cirqPassTrace (cC : String) (f t : Nat) (b : Backend) (n : Nat)
    (hn : n ∈ rangeList f t) :
    (cirqPassTrace cC f t).count (Event.timerStart b n)
      = if b = .cirqB then repeatCount n else 0 := by
  rw [cirqPassTrace]
  rw [List.count_cons, List.count_cons, List.count_append]
  have hlast : ([Event.gcEnabled]).count (Event.timerStart b n) = 0 := by
    rw [List.count_eq_zero]
    simp
  rw [hlast]
  by_cases hb : b = .cirqB
  · rw [if_pos hb]
    rw [count_flatMap_single (cirqIterTrace cC) (Event.timerStart b n) (repeatCount n) n
      (rangeList f t) (rangeList_nodup f t) hn]
    · simp
    · intro m hm
      rw [count_timerStart_cirqIterTrace]
      by_cases hmn : m = n
      · subst hmn
        rw [if_pos ⟨hb, rfl⟩, if_pos rfl]
      · rw [if_neg (by tauto), if_neg hmn]
  · rw [if_neg hb]
    rw [count_flatMap_zero]
    · simp
    · intro m hm
      rw [count_timerStart_cirqIterTrace]
      rw [if_neg (by tauto)]

/-- In a fully successful run, each live backend attempts exactly
`repeatCount n` timed samples at qubit count `n`. -/
theorem count_timerStart_fullTrace (te : TEnv) (f t : Nat) (b : Backend) (n : Nat)
    (hn : n ∈ rangeList f t) (hb : b ≠ .qsimB) :
    (fullTrace te f t).count (Event.timerStart b n) = repeatCount n := by
  rw [fullTrace]
  rw [List.count_append, List.count_append, List.count_append]
  rw [count_timerStart_qiskitPassTrace _ _ _ _ _ _ hn,
    count_timerStart_pyquilPassTrace _ _ _ _ _ hn,
    count_timerStart_cirqPassTrace _ _ _ _ _ hn]
  have hplot : ([Event.plotSaved]).count (Event.timerStart b n) = 0 := by
    rw [List.count_eq_zero]
    simp
  rw [hplot]
  cases b with
  | toasterB => simp
  | aerB => simp
  | qvmB => simp
  | cirqB => simp
  | qsimB => exact absurd rfl hb

theorem disc_sampleBlock (built : List (Fam × Nat)) (qcs : List Nat) (b : Backend)
    (n sh : Nat) (rest : List Event) (h1 : (famOf b, n) ∈ built)
    (h2 : b = .qvmB → n ∈ qcs) :
    disc built qcs none (sampleBlock b n sh ++ rest) = disc built qcs none rest := by
  have hstep : disc built qcs none (sampleBlock b n sh ++ rest)
      = (decide ((famOf b, n) ∈ built) && (!(b == .qvmB) || decide (n ∈ qcs))
          && disc built qcs (some (b, n)) (.runCall b n sh :: .timerStop b n :: rest)) := rfl
  rw [hstep]
  have hrun : disc built qcs (some (b, n)) (.runCall b n sh :: .timerStop b n :: rest)
      = (decide (b = b) && decide (n = n)
          && disc built qcs (some (b, n)) (.timerStop b n :: rest)) := rfl
  have hstop : disc built qcs (some (b, n)) (.timerStop b n :: rest)
      = (decide (b = b) && decide (n = n) && disc built qcs none rest) := rfl
  have hq : (!(b == .qvmB) || decide (n ∈ qcs)) = true := by
    by_cases hb : b = .qvmB
    · subst hb
      simp [h2 rfl]
    · simp [hb]
  rw [hrun, hstop, hq]
  simp [h1]

theorem disc_repeatFlat (b : Backend) (n sh : Nat) (built : List (Fam × Nat))
    (qcs : List Nat) (h1 : (famOf b, n) ∈ built) (h2 : b = .qvmB → n ∈ qcs) :
    ∀ (rs : List Nat) (rest : List Event),
    disc built qcs none ((rs.flatMap fun _ => sampleBlock b n sh) ++ rest)
      = disc built qcs none rest := by
  intro rs
  induction rs with
  | nil => intro rest; simp
  | cons r rrest ih =>
      intro rest
      rw [List.flatMap_cons, List.append_assoc, disc_sampleBlock built qcs b n sh _ h1 h2]
      exact ih rest

theorem disc_cellSet (built : List (Fam × Nat)) (qcs : List Nat) (l : String) (n : Nat)
    (rest : List Event) :
    disc built qcs none (.cellSet l n :: rest) = disc built qcs none rest := rfl

theorem disc_gcDisabled (built : List (Fam × Nat)) (qcs : List Nat) (rest : List Event) :
    disc built qcs none (.gcDisabled :: rest) = disc built qcs none rest := rfl

theorem disc_gcEnabled (built : List (Fam × Nat)) (qcs : List Nat) (rest : List Event) :
    disc built qcs none (.gcEnabled :: rest) = disc built qcs none rest := rfl

theorem disc_colAdded (built : List (Fam × Nat)) (qcs : List Nat) (l : String)
    (rest : List Event) :
    disc built qcs none (.colAdded l :: rest) = disc built qcs none rest := rfl

theorem disc_build (built : List (Fam × Nat)) (qcs : List Nat) (fm : Fam) (n : Nat)
    (rest : List Event) :
    disc built qcs none (.buildCircuit fm n :: rest) = disc ((fm, n) :: built) qcs none rest :=
  rfl

theorem disc_getQc (built : List (Fam × Nat)) (qcs : List Nat) (n : Nat)
    (rest : List Event) :
    disc built qcs none (.getQc n :: rest) = disc built (n :: qcs) none rest := rfl

theorem disc_plotSaved (built : List (Fam × Nat)) (qcs : List Nat) (rest : List Event) :
    disc built qcs none (.plotSaved :: rest) = disc built qcs none rest := rfl

theorem disc_qiskitIterTrace (cT cA : String) (m : Nat) (built : List (Fam × Nat))
    (qcs : List Nat) (rest : List Event) :
    disc built qcs none (qiskitIterTrace cT cA m ++ rest)
      = disc ((Fam.fQiskit, m) :: built) qcs none rest := by
  rw [qiskitIterTrace, List.cons_append, disc_build]
  rw [List.append_assoc, List.append_assoc, List.append_assoc]
  rw [repeatTrace, disc_repeatFlat .toasterB m 1 _ _ (by simp [famOf]) (by simp)]
  rw [List.cons_append, disc_cellSet, List.nil_append]
  rw [repeatTrace, disc_repeatFlat .aerB m 1 _ _ (by simp [famOf]) (by simp)]
  rw [List.cons_append, disc_cellSet, List.nil_append]

theorem disc_pyquilIterTrace (cQ : String) (m : Nat) (built : List (Fam × Nat))
    (qcs : List Nat) (rest : List Event) :
    disc built qcs none (pyquilIterTrace cQ m ++ rest)
      = disc ((Fam.fPyquil, m) :: built) (m :: qcs) none rest := by
  rw [pyquilIterTrace, List.cons_append, List.cons_append, disc_build, disc_getQc]
  rw [List.append_assoc]
  rw [repeatTrace, disc_repeatFlat .qvmB m 1 _ _ (by simp [famOf]) (by simp)]
  rw [List.cons_append, disc_cellSet, List.nil_append]

theorem disc_cirqIterTrace (cC : String) (m : Nat) (built : List (Fam × Nat))
    (qcs : List Nat) (rest : List Event) :
    disc built qcs none (cirqIterTrace cC m ++ rest)
      = disc ((Fam.fCirq, m) :: built) qcs none rest := by
  rw [cirqIterTrace, List.cons_append, disc_build]
  rw [List.append_assoc]
  rw [repeatTrace, disc_repeatFlat .cirqB m 1 _ _ (by simp [famOf]) (by simp)]
  rw [List.cons_append, disc_cellSet, List.nil_append]

theorem disc_qiskitFlat (cT cA : String) :
    ∀ (ns : List Nat) (built : List (Fam × Nat)) (qcs : List Nat) (rest : List Event),
    ∃ built', disc built qcs none ((ns.flatMap (qiskitIterTrace cT cA)) ++ rest)
      = disc built' qcs none rest := by
  intro ns
  induction ns with
  | nil => intro built qcs rest; exact ⟨built, by simp⟩
  | cons m mrest ih =>
      intro built qcs rest
      rw [List.flatMap_cons, List.append_assoc, disc_qiskitIterTrace]
      exact ih _ _ rest

theorem disc_pyquilFlat (cQ : String) :
    ∀ (ns : List Nat) (built : List (Fam × Nat)) (qcs : List Nat) (rest : List Event),
    ∃ built' qcs', disc built qcs none ((ns.flatMap (pyquilIterTrace cQ)) ++ rest)
      = disc built' qcs' none rest := by
  intro ns
  induction ns with
  | nil => intro built qcs rest; exact ⟨built, qcs, by simp⟩
  | cons m mrest ih =>
      intro built qcs rest
      rw [List.flatMap_cons, List.append_assoc, disc_pyquilIterTrace]
      exact ih _ _ rest

theorem disc_cirqFlat (cC : String) :
    ∀ (ns : List Nat) (built : List (Fam × Nat)) (qcs : List Nat) (rest : List Event),
    ∃ built', disc built qcs none ((ns.flatMap (cirqIterTrace cC)) ++ rest)
      = disc built' qcs none rest := by
  intro ns
  induction ns with
  | nil => intro built qcs rest; exact ⟨built, by simp⟩
  | cons m mrest ih =>
      intro built qcs rest
      rw [List.flatMap_cons, List.append_assoc, disc_cirqIterTrace]
      exact ih _ _ rest

/-- In a fully successful run, the whole harness trace satisfies the timing
discipline: every timed sample is immediately preceded by a forced gc pass,
the timed region holds only the run call, and circuit construction and QVM
acquisition for a qubit count precede its timed samples. -/
theorem disc_fullTrace (te : TEnv) (f t : Nat) :
    disc [] [] none (fullTrace te f t) = true := by
  rw [fullTrace, qiskitPassTrace]
  rw [List.append_assoc, List.append_assoc]
  rw [List.cons_append, List.cons_append, List.cons_append,
    disc_gcDisabled, disc_colAdded, disc_colAdded]
  rw [List.append_assoc]
  obtain ⟨b1, hb1⟩ := disc_qiskitFlat (toasterLabel te.toasterV) (aerLabel te.aerV)
    (rangeList f t) [] [] ([Event.gcEnabled]
      ++ (pyquilPassTrace (qvmLabel te.qvmV) f t
          ++ (cirqPassTrace (cirqLabel te.cirqV) f t ++ [Event.plotSaved])))
  rw [hb1]
  rw [List.cons_append, disc_gcEnabled, List.nil_append]
  rw [pyquilPassTrace]
  rw [List.cons_append, List.cons_append, disc_gcDisabled, disc_colAdded]
  rw [List.append_assoc]
  obtain ⟨b2, q2, hb2⟩ := disc_pyquilFlat (qvmLabel te.qvmV) (rangeList f t) b1 []
    ([Event.gcEnabled] ++ (cirqPassTrace (cirqLabel te.cirqV) f t ++ [Event.plotSaved]))
  rw [hb2]
  rw [List.cons_append, disc_gcEnabled, List.nil_append]
  rw [cirqPassTrace]
  rw [List.cons_append, List.cons_append, disc_gcDisabled, disc_colAdded]
  rw [List.append_assoc]
  obtain ⟨b3, hb3⟩ := disc_cirqFlat (cirqLabel te.cirqV) (rangeList f t) b2 q2
    ([Event.gcEnabled] ++ [Event.plotSaved])
  rw [hb3]
  rfl

theorem colAdded_not_mem_qiskitIterTrace (cT cA : String) (m : Nat) (l : String) :
    Event.colAdded l ∉ qiskitIterTrace cT cA m := by
  intro h
  rcases mem_qiskitIterTrace cT cA m _ h with h1 | h1 | h1 | h1 | ⟨b, _, h1 | h1 | h1⟩ <;>
    simp at h1

theorem colAdded_not_mem_pyquilIterTrace (cQ : String) (m : Nat) (l : String) :
    Event.colAdded l ∉ pyquilIterTrace cQ m := by
  intro h
  rcases mem_pyquilIterTrace cQ m _ h with h1 | h1 | h1 | h1 | h1 | h1 | h1 <;> simp at h1

theorem colAdded_not_mem_cirqIterTrace (cC : String) (m : Nat) (l : String) :
    Event.colAdded l ∉ cirqIterTrace cC m := by
  intro h
  rcases mem_cirqIterTrace cC m _ h with h1 | h1 | h1 | h1 | h1 | h1 <;> simp at h1

theorem count_colAdded_qiskitPassTrace (cT cA : String) (f t : Nat) (l : String) :
    (qiskitPassTrace cT cA f t).count (Event.colAdded l)
      = (if cT = l then 1 else 0) + (if cA = l then 1 else 0) := by
  rw [qiskitPassTrace, List.count_cons, List.count_cons, List.count_cons, List.count_append]
  have h0 : ((rangeList f t).flatMap (qiskitIterTrace cT cA)).count (Event.colAdded l) = 0 := by
    apply count_flatMap_zero
    intro m _
    rw [List.count_eq_zero]
    exact colAdded_not_mem_qiskitIterTrace cT cA m l
  rw [h0]
  have h1 : ([Event.gcEnabled]).count (Event.colAdded l) = 0 := by
    rw [List.count_eq_zero]
    simp
  rw [h1]
  by_cases hT : cT = l <;> by_cases hA : cA = l <;>
    simp [hT, hA, List.count_singleton'] <;> omega

theorem count_colAdded_pyquilPassTrace (cQ : String) (f t : Nat) (l : String) :
    (pyquilPassTrace cQ f t).count (Event.colAdded l) = if cQ = l then 1 else 0 := by
  rw [pyquilPassTrace, List.count_cons, List.count_cons, List.count_append]
  have h0 : ((rangeList f t).flatMap (pyquilIterTrace cQ)).count (Event.colAdded l) = 0 := by
    apply count_flatMap_zero
    intro m _
    rw [List.count_eq_zero]
    exact colAdded_not_mem_pyquilIterTrace cQ m l
  rw [h0]
  have h1 : ([Event.gcEnabled]).count (Event.colAdded l) = 0 := by
    rw [List.count_eq_zero]
    simp
  rw [h1]
  by_cases hQ : cQ = l <;> simp [hQ] <;> omega

theorem count_colAdded_cirqPassTrace (cC : String) (f t : Nat) (l : String) :
    (cirqPassTrace cC f t).count (Event.colAdded l) = if cC = l then 1 else 0 := by
  rw [cirqPassTrace, List.count_cons, List.count_cons, List.count_append]
  have h0 : ((rangeList f t).flatMap (cirqIterTrace cC)).count (Event.colAdded l) = 0 := by
    apply count_flatMap_zero
    intro m _
    rw [List.count_eq_zero]
    exact colAdded_not_mem_cirqIterTrace cC m l
  rw [h0]
  have h1 : ([Event.gcEnabled]).count (Event.colAdded l) = 0 := by
    rw [List.count_eq_zero]
    simp
  rw [h1]
  by_cases hC : cC = l <;> simp [hC] <;> omega

theorem count_colAdded_fullTrace (te : TEnv) (f t : Nat) (l : String) :
    (fullTrace te f t).count (Event.colAdded l)
      = (((if toasterLabel te.toasterV = l then 1 else 0)
          + (if aerLabel te.aerV = l then 1 else 0))
          + (if qvmLabel te.qvmV = l then 1 else 0))
          + (if cirqLabel te.cirqV = l then 1 else 0) := by
  rw [fullTrace, List.count_append, List.count_append, List.count_append]
  rw [count_colAdded_qiskitPassTrace, count_colAdded_pyquilPassTrace,
    count_colAdded_cirqPassTrace]
  have h1 : ([Event.plotSaved]).count (Event.colAdded l) = 0 := by
    rw [List.count_eq_zero]
    simp
  rw [h1]
  omega

theorem cellSet_mem_qiskitPassTrace (cT cA : String) (f t : Nat) (l : String) (n : Nat)
    (h : Event.cellSet l n ∈ qiskitPassTrace cT cA f t) : l = cT ∨ l = cA := by
  rcases mem_qiskitPassTrace cT cA f t _ h with h1 | h1 | h1 | h1 | ⟨m, _, h2⟩
  · simp at h1
  · simp at h1
  · simp at h1
  · simp at h1
  · rcases mem_qiskitIterTrace cT cA m _ h2 with h3 | h3 | h3 | h3 | ⟨b, _, h3 | h3 | h3⟩ <;>
      first
        | (rw [Event.cellSet.injEq] at h3; exact Or.inl h3.1)
        | (rw [Event.cellSet.injEq] at h3; exact Or.inr h3.1)
        | exact absurd h3 (by simp)

theorem cellSet_mem_pyquilPassTrace (cQ : String) (f t : Nat) (l : String) (n : Nat)
    (h : Event.cellSet l n ∈ pyquilPassTrace cQ f t) : l = cQ := by
  rcases mem_pyquilPassTrace cQ f t _ h with h1 | h1 | h1 | ⟨m, _, h2⟩
  · simp at h1
  · simp at h1
  · simp at h1
  · rcases mem_pyquilIterTrace cQ m _ h2 with h3 | h3 | h3 | h3 | h3 | h3 | h3 <;>
      first
        | (rw [Event.cellSet.injEq] at h3; exact h3.1)
        | exact absurd h3 (by simp)

theorem cellSet_mem_cirqPassTrace (cC : String) (f t : Nat) (l : String) (n : Nat)
    (h : Event.cellSet l n ∈ cirqPassTrace cC f t) : l = cC := by
  rcases mem_cirqPassTrace cC f t _ h with h1 | h1 | h1 | ⟨m, _, h2⟩
  · simp at h1
  · simp at h1
  · simp at h1
  · rcases mem_cirqIterTrace cC m _ h2 with h3 | h3 | h3 | h3 | h3 | h3 <;>
      first
        | (rw [Event.cellSet.injEq] at h3; exact h3.1)
        | exact absurd h3 (by simp)

theorem timerStart_mem_qiskitPassTrace (cT cA : String) (f t : Nat) (b : Backend) (n : Nat)
    (h : Event.timerStart b n ∈ qiskitPassTrace cT cA f t) : b = .toasterB ∨ b = .aerB := by
  rcases mem_qiskitPassTrace cT cA f t _ h with h1 | h1 | h1 | h1 | ⟨m, _, h2⟩
  · simp at h1
  · simp at h1
  · simp at h1
  · simp at h1
  · rcases mem_qiskitIterTrace cT cA m _ h2 with h3 | h3 | h3 | h3 | ⟨b', hb', h3 | h3 | h3⟩ <;>
      first
        | (rw [Event.timerStart.injEq] at h3; exact h3.1 ▸ hb')
        | exact absurd h3 (by simp)

theorem timerStart_mem_pyquilPassTrace (cQ : String) (f t : Nat) (b : Backend) (n : Nat)
    (h : Event.timerStart b n ∈ pyquilPassTrace cQ f t) : b = .qvmB := by
  rcases mem_pyquilPassTrace cQ f t _ h with h1 | h1 | h1 | ⟨m, _, h2⟩
  · simp at h1
  · simp at h1
  · simp at h1
  · rcases mem_pyquilIterTrace cQ m _ h2 with h3 | h3 | h3 | h3 | h3 | h3 | h3 <;>
      first
        | (rw [Event.timerStart.injEq] at h3; exact h3.1)
        | exact absurd h3 (by simp)

theorem timerStart_mem_cirqPassTrace (cC : String) (f t : Nat) (b : Backend) (n : Nat)
    (h : Event.timerStart b n ∈ cirqPassTrace cC f t) : b = .cirqB := by
  rcases mem_cirqPassTrace cC f t _ h with h1 | h1 | h1 | ⟨m, _, h2⟩
  · simp at h1
  · simp at h1
  · simp at h1
  · rcases mem_cirqIterTrace cC m _ h2 with h3 | h3 | h3 | h3 | h3 | h3 <;>
      first
        | (rw [Event.timerStart.injEq] at h3; exact h3.1)
        | exact absurd h3 (by simp)

/-- C1, counterexample: the qsim builder emits no measurement operations (its
measurement loop is commented out), so for n = 1 its circuit lacks the
measurement that the common logical circuit requires. -/
theorem claim_C1_counterexample :
    qsimToSpec (qft_qsim 1) = [GateOp.hGate 0]
      ∧ qftSpec 1 = [GateOp.hGate 0, GateOp.measureQ 0]
      ∧ qsimToSpec (qft_qsim 1) ≠ qftSpec 1
      ∧ (qsimToSpec (qft_qsim 1)).countP GateOp.isMeas = 0 := by
  refine ⟨by decide, by decide, by decide, by decide⟩

/-- C1, amended: for every n ≥ 1 the Qiskit, pyQuil and Cirq builders produce
exactly the reference logical circuit (gates in the specified order and
angles pi/2^(j-k), followed by n measurements in index order, n Hadamards
and n(n-1)/2 controlled phases in total), while the qsim builder produces
the same gate sequence but no measurement operations at all. -/
theorem claim_C1 (n : Nat) (hn : 1 ≤ n) :
    qiskitToSpec (qft_qiskit n) = qftSpec n
      ∧ pyquilToSpec (qft_pyquil n) = qftSpec n
      ∧ cirqToSpec (qft_cirq n) = qftSpec n
      ∧ qsimToSpec (qft_qsim n) = qftSpecGates n
      ∧ qftSpec n = qftSpecGates n ++ (List.range n).map GateOp.measureQ
      ∧ (qftSpec n).countP GateOp.isH = n
      ∧ (qftSpec n).countP GateOp.isCP = n * (n - 1) / 2
      ∧ (qftSpec n).countP GateOp.isMeas = n
      ∧ (qsimToSpec (qft_qsim n)).countP GateOp.isMeas = 0 := by
  refine ⟨qiskit_spec_eq n, pyquil_spec_eq n, cirq_spec_eq n, qsim_spec_eq n,
    qftSpec_split n, countH_spec n, countCP_spec n, countMeas_spec n, ?_⟩
  rw [qsim_spec_eq n]
  exact countMeas_gates n

/-- C1, witness at n = 3. -/
theorem claim_C1_witness :
    (1 ≤ 3)
      ∧ (qiskitToSpec (qft_qiskit 3) = qftSpec 3
          ∧ pyquilToSpec (qft_pyquil 3) = qftSpec 3
          ∧ cirqToSpec (qft_cirq 3) = qftSpec 3
          ∧ qsimToSpec (qft_qsim 3) = qftSpecGates 3
          ∧ qftSpec 3 = qftSpecGates 3 ++ (List.range 3).map GateOp.measureQ
          ∧ (qftSpec 3).countP GateOp.isH = 3
          ∧ (qftSpec 3).countP GateOp.isCP = 3 * (3 - 1) / 2
          ∧ (qftSpec 3).countP GateOp.isMeas = 3
          ∧ (qsimToSpec (qft_qsim 3)).countP GateOp.isMeas = 0) :=
  ⟨by decide, claim_C1 3 (by decide)⟩

/-- C2: in a successful run, the value recorded into the results table for
every (qubit count, backend) cell is the minimum of the elapsed-time samples
of the repeat loop: it is one of the samples and is at most every sample. -/
theorem claim_C2 (te : TEnv) (f t n : Nat) (b : Backend) (hb : b ≠ .qsimB)
    (hn : n ∈ rangeList f t) :
    ∃ m, (benchmark_qft (TEnv.toEnv te) f t).2.table.cellAt (te.labelOf b) n
          = some (some m)
      ∧ m ∈ (List.range (repeatCount n)).map (te.runT b n)
      ∧ ∀ x ∈ (List.range (repeatCount n)).map (te.runT b n), m ≤ x := by
  have hne : (List.range (repeatCount n)).map (te.runT b n) ≠ [] := by
    simp [repeatCount]
    split_ifs <;> simp
  have hsome := foldBest_isSome ((List.range (repeatCount n)).map (te.runT b n)) none
    (Or.inr hne)
  obtain ⟨m, hm⟩ := Option.isSome_iff_exists.1 hsome
  obtain ⟨hmem, hle, _⟩ := foldBest_spec _ none m hm
  refine ⟨m, ?_, ?_, hle⟩
  · rw [benchmark_qft_tenv]
    have hc := fullCells_cell te f t n hn
    cases b with
    | toasterB =>
        dsimp only [TEnv.labelOf, Table.cellAt]
        rw [hc.1, bestSamples, bestOf, hm]
    | aerB =>
        dsimp only [TEnv.labelOf, Table.cellAt]
        rw [hc.2.1, bestSamples, bestOf, hm]
    | qvmB =>
        dsimp only [TEnv.labelOf, Table.cellAt]
        rw [hc.2.2.1, bestSamples, bestOf, hm]
    | cirqB =>
        dsimp only [TEnv.labelOf, Table.cellAt]
        rw [hc.2.2.2, bestSamples, bestOf, hm]
    | qsimB => exact absurd rfl hb
  · rcases hmem with h | h
    · simp at h
    · exact h

/-- C2, witness. -/
theorem claim_C2_witness :
    (1 ∈ rangeList 1 1)
      ∧ ∃ m, (benchmark_qft (TEnv.toEnv teZero) 1 1).2.table.cellAt
              (teZero.labelOf .toasterB) 1 = some (some m)
          ∧ m ∈ (List.range (repeatCount 1)).map (teZero.runT .toasterB 1)
          ∧ ∀ x ∈ (List.range (repeatCount 1)).map (teZero.runT .toasterB 1), m ≤ x :=
  ⟨by decide, claim_C2 teZero 1 1 1 .toasterB (by decide) (by decide)⟩

/-- C3: exceptions abort the whole harness invocation. If any backend pass
raises, the run result is that error and nothing later happens: the chart is
never written on any failing run, a failure in the Qiskit pass yields
exactly the Qiskit pass's aborted state (no pyQuil or Cirq pass runs), and a
failure in the pyQuil pass yields exactly its aborted state (no Cirq pass
runs). No error is retried or recovered. -/
theorem claim_C3 :
    (∀ (env : Env) (f t : Nat), (benchmark_qft env f t).1.isSome = true →
      Event.plotSaved ∉ (benchmark_qft env f t).2.trace)
      ∧ (∀ (env : Env) (f t : Nat) (e : Err) (s1 : HState),
          benchmark_qft_qiskit env f t (initState f t) = (some e, s1) →
          benchmark_qft env f t = (some e, s1))
      ∧ (∀ (env : Env) (f t : Nat) (e : Err) (s1 s2 : HState),
          benchmark_qft_qiskit env f t (initState f t) = (none, s1) →
          benchmark_qft_pyquil env f t s1 = (some e, s2) →
          benchmark_qft env f t = (some e, s2)) := by
  refine ⟨?_, ?_, ?_⟩
  · intro env f t hsome hmem
    obtain ⟨ext, hall, hcase⟩ := benchmark_qft_tame env f t
    rcases hcase with ⟨hnone, _⟩ | ⟨_, htr⟩
    · rw [hnone] at hsome
      simp at hsome
    · rw [htr] at hmem
      have := hall _ hmem
      simp [tame] at this
  · intro env f t e s1 h
    rw [benchmark_qft, h]
  · intro env f t e s1 s2 h1 h2
    rw [benchmark_qft, h1]
    dsimp only
    rw [h2]

/-- C3, witness: with an unreachable Toaster version endpoint the whole run
aborts and no chart event is emitted. -/
theorem claim_C3_witness :
    Event.plotSaved ∉ (benchmark_qft envFail 1 1).2.trace :=
  claim_C3.1 envFail 1 1 (by decide)

/-- C4: in a successful run, for every qubit count n in the requested range
and every live backend, the repeat loop attempts exactly 4 timed samples
when n ≤ 20 and exactly 1 when n > 20. -/
theorem claim_C4 (te : TEnv) (f t n : Nat) (b : Backend) (hb : b ≠ .qsimB)
    (hn : n ∈ rangeList f t) :
    (benchmark_qft (TEnv.toEnv te) f t).2.trace.count (Event.timerStart b n)
      = if n ≤ 20 then 4 else 1 := by
  rw [benchmark_qft_tenv]
  have hcount := count_timerStart_fullTrace te f t b n hn hb
  rw [repeatCount] at hcount
  exact hcount

/-- C4, witness. -/
theorem claim_C4_witness :
    (benchmark_qft (TEnv.toEnv teZero) 1 1).2.trace.count (Event.timerStart .cirqB 1)
      = if 1 ≤ 20 then 4 else 1 :=
  claim_C4 teZero 1 1 1 .cirqB (by decide) (by decide)

/-- C5: the results table's row index equals the exact integer range
[fromQubits, toQubits] on every path, regardless of which backends succeed;
and in a successful run each backend label column is added exactly once,
with the column-added event placed at the start of that backend's pass,
before every cell write of that column. -/
theorem claim_C5 :
    (∀ (env : Env) (f t : Nat), (benchmark_qft env f t).2.table.rows = rangeList f t)
      ∧ (∀ (te : TEnv) (f t : Nat),
          ∀ l ∈ [toasterLabel te.toasterV, aerLabel te.aerV,
                 qvmLabel te.qvmV, cirqLabel te.cirqV],
          (benchmark_qft (TEnv.toEnv te) f t).2.trace.count (Event.colAdded l) = 1
            ∧ ∃ A B, (benchmark_qft (TEnv.toEnv te) f t).2.trace
                  = A ++ Event.colAdded l :: B
                ∧ ∀ n, Event.cellSet l n ∉ A) := by
  constructor
  · exact benchmark_qft_rows
  · intro te f t l hl
    rw [benchmark_qft_tenv]
    simp only [List.mem_cons, List.mem_singleton] at hl
    have hcount := count_colAdded_fullTrace te f t l
    rcases hl with rfl | rfl | rfl | rfl | hfalse
    · refine ⟨?_, ?_⟩
      · rw [hcount, if_pos rfl, if_neg (aer_ne_toaster _ _), if_neg (qvm_ne_toaster _ _),
          if_neg (cirq_ne_toaster _ _)]
      · refine ⟨[Event.gcDisabled], ?_, ?_, ?_⟩
        · exact Event.colAdded (aerLabel te.aerV) ::
            (((rangeList f t).flatMap
                (qiskitIterTrace (toasterLabel te.toasterV) (aerLabel te.aerV))
              ++ [Event.gcEnabled])
              ++ (pyquilPassTrace (qvmLabel te.qvmV) f t
                  ++ (cirqPassTrace (cirqLabel te.cirqV) f t ++ [Event.plotSaved])))
        · simp [fullTrace, qiskitPassTrace]
        · intro n
          simp
    · refine ⟨?_, ?_⟩
      · rw [hcount, if_neg (Ne.symm (aer_ne_toaster _ _)), if_pos rfl,
          if_neg (qvm_ne_aer _ _), if_neg (cirq_ne_aer _ _)]
      · refine ⟨[Event.gcDisabled, Event.colAdded (toasterLabel te.toasterV)], ?_, ?_, ?_⟩
        · exact (((rangeList f t).flatMap
                (qiskitIterTrace (toasterLabel te.toasterV) (aerLabel te.aerV))
              ++ [Event.gcEnabled])
              ++ (pyquilPassTrace (qvmLabel te.qvmV) f t
                  ++ (cirqPassTrace (cirqLabel te.cirqV) f t ++ [Event.plotSaved])))
        · simp [fullTrace, qiskitPassTrace]
        · intro n
          simp
    · refine ⟨?_, ?_⟩
      · rw [hcount, if_neg (Ne.symm (qvm_ne_toaster _ _)), if_neg (Ne.symm (qvm_ne_aer _ _)),
          if_pos rfl, if_neg (cirq_ne_qvm _ _)]
      · refine ⟨qiskitPassTrace (toasterLabel te.toasterV) (aerLabel te.aerV) f t
            ++ [Event.gcDisabled], ?_, ?_, ?_⟩
        · exact (((rangeList f t).flatMap (pyquilIterTrace (qvmLabel te.qvmV))
              ++ [Event.gcEnabled])
              ++ (cirqPassTrace (cirqLabel te.cirqV) f t ++ [Event.plotSaved]))
        · simp [fullTrace, pyquilPassTrace]
        · intro n hmem
          rcases List.mem_append.1 hmem with h | h
          · rcases cellSet_mem_qiskitPassTrace _ _ _ _ _ _ h with h' | h'
            · exact qvm_ne_toaster te.qvmV te.toasterV h'
            · exact qvm_ne_aer te.qvmV te.aerV h'
          · simp at h
    · refine ⟨?_, ?_⟩
      · rw [hcount, if_neg (Ne.symm (cirq_ne_toaster _ _)), if_neg (Ne.symm (cirq_ne_aer _ _)),
          if_neg (Ne.symm (cirq_ne_qvm _ _)), if_pos rfl]
      · refine ⟨(qiskitPassTrace (toasterLabel te.toasterV) (aerLabel te.aerV) f t
            ++ pyquilPassTrace (qvmLabel te.qvmV) f t) ++ [Event.gcDisabled], ?_, ?_, ?_⟩
        · exact (((rangeList f t).flatMap (cirqIterTrace (cirqLabel te.cirqV))
              ++ [Event.gcEnabled]) ++ [Event.plotSaved])
        · simp [fullTrace, cirqPassTrace]
        · intro n hmem
          rcases List.mem_append.1 hmem with h | h
          · rcases List.mem_append.1 h with h' | h'
            · rcases cellSet_mem_qiskitPassTrace _ _ _ _ _ _ h' with h'' | h''
              · exact cirq_ne_toaster te.cirqV te.toasterV h''
              · exact cirq_ne_aer te.cirqV te.aerV h''
            · exact cirq_ne_qvm te.cirqV te.qvmV
                (cellSet_mem_pyquilPassTrace _ _ _ _ _ h')
          · simp at h
    · exact absurd hfalse (by simp)

/-- C5, witness. -/
theorem claim_C5_witness :
    (benchmark_qft envFail 2 5).2.table.rows = rangeList 2 5
      ∧ ((toasterLabel teZero.toasterV
            ∈ [toasterLabel teZero.toasterV, aerLabel teZero.aerV,
               qvmLabel teZero.qvmV, cirqLabel teZero.cirqV])
          ∧ (benchmark_qft (TEnv.toEnv teZero) 1 1).2.trace.count
              (Event.colAdded (toasterLabel teZero.toasterV)) = 1) :=
  ⟨claim_C5.1 envFail 2 5,
   by
    refine ⟨by simp, ?_⟩
    exact (claim_C5.2 teZero 1 1 (toasterLabel teZero.toasterV) (by simp)).1⟩

/-- C6, counterexample: the claim fails on the code. When the Toaster version
query raises, `benchmark_qft_qiskit` aborts after `gc.disable()` and before
its trailing `gc.enable()` (there is no try/finally), so the pass exits on
the error path with automatic memory reclamation still disabled. -/
theorem claim_C6_counterexample :
    (benchmark_qft_qiskit envFail 1 1 (initState 1 1)).1.isSome = true
      ∧ (benchmark_qft_qiskit envFail 1 1 (initState 1 1)).2.gcOn = false :=
  ⟨rfl, rfl⟩

/-- C6, amended: each backend pass re-enables automatic memory reclamation
only on its successful exit path; on every error exit the pass leaves the
process-wide setting disabled (the disabled state leaks past an aborting
pass). -/
theorem claim_C6 (env : Env) (f t : Nat) (s : HState) :
    (((benchmark_qft_qiskit env f t s).1 = none →
        (benchmark_qft_qiskit env f t s).2.gcOn = true)
      ∧ (∀ e, (benchmark_qft_qiskit env f t s).1 = some e →
          (benchmark_qft_qiskit env f t s).2.gcOn = false))
      ∧ (((benchmark_qft_pyquil env f t s).1 = none →
            (benchmark_qft_pyquil env f t s).2.gcOn = true)
          ∧ (∀ e, (benchmark_qft_pyquil env f t s).1 = some e →
              (benchmark_qft_pyquil env f t s).2.gcOn = false))
      ∧ (((benchmark_qft_cirq env f t s).1 = none →
            (benchmark_qft_cirq env f t s).2.gcOn = true)
          ∧ (∀ e, (benchmark_qft_cirq env f t s).1 = some e →
              (benchmark_qft_cirq env f t s).2.gcOn = false)) :=
  ⟨⟨(benchmark_qft_qiskit_state env f t s).2.1, (benchmark_qft_qiskit_state env f t s).2.2⟩,
   ⟨(benchmark_qft_pyquil_state env f t s).2.1, (benchmark_qft_pyquil_state env f t s).2.2⟩,
   ⟨(benchmark_qft_cirq_state env f t s).2.1, (benchmark_qft_cirq_state env f t s).2.2⟩⟩

/-- C6, witness: a fully successful Qiskit pass ends with gc enabled, and the
aborting pass of the counterexample environment ends with gc disabled. -/
theorem claim_C6_witness :
    (benchmark_qft_qiskit (TEnv.toEnv teZero) 1 1 (initState 1 1)).2.gcOn = true
      ∧ (benchmark_qft_qiskit envFail 1 1 (initState 1 1)).2.gcOn = false :=
  ⟨(claim_C6 (TEnv.toEnv teZero) 1 1 (initState 1 1)).1.1 (by rfl),
   (claim_C6 envFail 1 1 (initState 1 1)).1.2 "connection refused" (by rfl)⟩

/-- C7, counterexample: the spec's concrete angles for CircuitSpec(3)
contradict its own formula and the code. The (j=1,k=0) controlled phase has
angle pi/2^(1-0) = pi/2, not pi as the claim states (and the (j=2,k=0) and
(j=2,k=1) angles are pi/4 and pi/2, not pi/2 and pi). -/
theorem claim_C7_counterexample :
    cphases (qiskitToSpec (qft_qiskit 3)) = [(1, 1, 0), (2, 2, 0), (1, 2, 1)]
      ∧ Real.pi / 2 ^ (1 : Nat) ≠ Real.pi := by
  constructor
  · decide
  · intro h
    have hpos := Real.pi_pos
    rw [pow_one] at h
    linarith

/-- C7, amended: the circuit built for n = 3 contains exactly 3
ControlledPhase gates for the (j=1,k=0), (j=2,k=0), (j=2,k=1) pairs, with
exponents j-k = 1, 2, 1, i.e. angles pi/2, pi/4 and pi/2, consistent with
angle = pi/2^(j-k). -/
theorem claim_C7 :
    cphases (qiskitToSpec (qft_qiskit 3)) = [(1, 1, 0), (2, 2, 0), (1, 2, 1)]
      ∧ Real.pi / 2 ^ (1 : Nat) = Real.pi / 2
      ∧ Real.pi / 2 ^ (2 : Nat) = Real.pi / 4 := by
  refine ⟨by decide, by norm_num, by norm_num⟩

/-- C8: every timed run call, in every backend pass, on every path of the
harness, executes with exactly one shot. -/
theorem claim_C8 (env : Env) (f t : Nat) (b : Backend) (n sh : Nat)
    (hmem : Event.runCall b n sh ∈ (benchmark_qft env f t).2.trace) : sh = 1 := by
  obtain ⟨ext, hall, hcase⟩ := benchmark_qft_tame env f t
  rcases hcase with ⟨_, htr⟩ | ⟨_, htr⟩
  · rw [htr] at hmem
    rcases List.mem_append.1 hmem with h | h
    · have := hall _ h
      simp [tame] at this
      exact this.1
    · exact absurd (List.mem_singleton.1 h) (by simp)
  · rw [htr] at hmem
    have := hall _ hmem
    simp [tame] at this
    exact this.1

/-- C8, witness. -/
theorem claim_C8_witness : (1 : Nat) = 1 :=
  claim_C8 (TEnv.toEnv teZero) 1 1 .toasterB 1 1 (by decide)

/-- C9: in every fully successful run the whole trace obeys the timing
discipline: a forced synchronous gc pass immediately precedes every start
timestamp, each timed region contains only the backend run call up to the
stop timestamp, and circuit construction and QVM acquisition for a qubit
count happen before its timed regions. -/
theorem claim_C9 (te : TEnv) (f t : Nat) :
    disc [] [] none ((benchmark_qft (TEnv.toEnv te) f t).2.trace) = true := by
  rw [benchmark_qft_tenv]
  exact disc_fullTrace te f t

/-- C10: the harness runs exactly the three passes Qiskit (adding the
Toaster column then the Aer column), pyQuil, Cirq, in that order; the qsim
pass is never invoked on any path (no qsim run call, column or circuit
build ever appears); and a fully successful run produces exactly the four
backend columns in insertion order. -/
theorem claim_C10 :
    (∀ (te : TEnv) (f t : Nat),
        (benchmark_qft (TEnv.toEnv te) f t).2.table.cols
          = [toasterLabel te.toasterV, aerLabel te.aerV, qvmLabel te.qvmV,
             cirqLabel te.cirqV]
        ∧ (benchmark_qft (TEnv.toEnv te) f t).2.trace
          = qiskitPassTrace (toasterLabel te.toasterV) (aerLabel te.aerV) f t
            ++ pyquilPassTrace (qvmLabel te.qvmV) f t
            ++ cirqPassTrace (cirqLabel te.cirqV) f t
            ++ [Event.plotSaved])
      ∧ (∀ (env : Env) (f t n sh : Nat),
          Event.runCall .qsimB n sh ∉ (benchmark_qft env f t).2.trace)
      ∧ (∀ (env : Env) (f t : Nat),
          Event.colAdded "qsim" ∉ (benchmark_qft env f t).2.trace)
      ∧ (∀ (env : Env) (f t n : Nat),
          Event.buildCircuit .fQsim n ∉ (benchmark_qft env f t).2.trace) := by
  refine ⟨?_, ?_, ?_, ?_⟩
  · intro te f t
    rw [benchmark_qft_tenv]
    exact ⟨rfl, rfl⟩
  · intro env f t n sh hmem
    obtain ⟨ext, hall, hcase⟩ := benchmark_qft_tame env f t
    rcases hcase with ⟨_, htr⟩ | ⟨_, htr⟩ <;> rw [htr] at hmem
    · rcases List.mem_append.1 hmem with h | h
      · have := hall _ h
        simp [tame] at this
      · exact absurd (List.mem_singleton.1 h) (by simp)
    · have := hall _ hmem
      simp [tame] at this
  · intro env f t hmem
    obtain ⟨ext, hall, hcase⟩ := benchmark_qft_tame env f t
    rcases hcase with ⟨_, htr⟩ | ⟨_, htr⟩ <;> rw [htr] at hmem
    · rcases List.mem_append.1 hmem with h | h
      · have := hall _ h
        simp [tame] at this
      · exact absurd (List.mem_singleton.1 h) (by simp)
    · have := hall _ hmem
      simp [tame] at this
  · intro env f t n hmem
    obtain ⟨ext, hall, hcase⟩ := benchmark_qft_tame env f t
    rcases hcase with ⟨_, htr⟩ | ⟨_, htr⟩ <;> rw [htr] at hmem
    · rcases List.mem_append.1 hmem with h | h
      · have := hall _ h
        simp [tame] at this
      · exact absurd (List.mem_singleton.1 h) (by simp)
    · have := hall _ hmem
      simp [tame] at this

/-- C10, witness. -/
theorem claim_C10_witness :
    (benchmark_qft (TEnv.toEnv teZero) 1 1).2.table.cols
        = [toasterLabel teZero.toasterV, aerLabel teZero.aerV, qvmLabel teZero.qvmV,
           cirqLabel teZero.cirqV]
      ∧ Event.colAdded "qsim" ∉ (benchmark_qft (TEnv.toEnv teZero) 1 1).2.trace :=
  ⟨(claim_C10.1 teZero 1 1).1, claim_C10.2.2.1 (TEnv.toEnv teZero) 1 1⟩
